import Mathlib

/-
  Verification of the elastic-store state container (src/index.js) against its
  natural-language specification.

  The JavaScript module is shallowly embedded:
  * JavaScript values are the inductive `JVal`; objects live in an explicit
    `Heap` (a list of key/value association lists) and are denoted by `JVal.ref`
    addresses, so that reference identity and in-place mutation are expressible.
  * Action trees (`AVal`) hold transition functions as pure Lean functions
    `JVal -> JVal -> JVal`; this mirrors caller-supplied JS functions that do
    not themselves mutate the heap (all functions appearing in the repository
    tests are of this form).
  * Fallible code returns `Except JSError`; `JSError.pathError` models the
    Error raised by `dispatch` (it carries the offending path string, which is
    what the message interpolates), `JSError.typeError` models a raw TypeError
    (strict-mode property access on a non-object, call of a non-function).
  Model boundaries (documented, not exercised by any claim): prototype-chain
  lookups (inherited properties are treated as absent), JS arrays as
  assignment targets, boxing of primitives by Object.assign (the boxed object
  is discarded by the source anyway), numeric NaN.
-/

namespace ElasticStore

/-- JavaScript values. Objects are heap references; arrays, symbols and
function values stored in state are outside the model (no claim needs them). -/
inductive JVal where
  | undef
  | jnull
  | bool (b : Bool)
  | num (n : Int)
  | str (s : String)
  | ref (a : Nat)
deriving DecidableEq, Repr

/-- Heap addresses. -/
abbrev Addr := Nat

/-- A JS object: its own enumerable properties, in insertion order. -/
abbrev Obj := List (String × JVal)

/-- The mutable object heap; the address of an object is its index. -/
structure Heap where
  objs : List Obj
deriving DecidableEq, Repr

def Heap.lookup (h : Heap) (a : Addr) : Option Obj := h.objs[a]?

def Heap.update (h : Heap) (a : Addr) (o : Obj) : Heap := ⟨h.objs.set a o⟩

/-- Allocate a fresh object, returning its address. -/
def Heap.alloc (h : Heap) (o : Obj) : Addr × Heap := (h.objs.length, ⟨h.objs ++ [o]⟩)

def Heap.size (h : Heap) : Nat := h.objs.length

/-- Property read `o[k]`; an absent key reads as undefined. -/
def Obj.get (o : Obj) (k : String) : JVal :=
  match o with
  | [] => .undef
  | (k', v) :: rest => if k' = k then v else Obj.get rest k

/-- Property write `o[k] = v`: replaces the first binding of `k` in place
(JS keeps the original insertion position) or appends a new binding. -/
def Obj.set (o : Obj) (k : String) (v : JVal) : Obj :=
  match o with
  | [] => [(k, v)]
  | (k', v') :: rest => if k' = k then (k, v) :: rest else (k', v') :: Obj.set rest k v

/-- JS truthiness of a value. -/
def truthy : JVal → Bool
  | .undef => false
  | .jnull => false
  | .bool b => b
  | .num n => n != 0
  | .str s => s != ""
  | .ref _ => true

/-- Errors surfaced to the caller. `pathError p` is the
`Error("Could not find action associated with path 'p'.")` raised by
dispatch; `typeError` is a raw TypeError. -/
inductive JSError where
  | typeError
  | pathError (path : String)
deriving DecidableEq, Repr

/-- An action-tree value: either a function (transition function or an `init`
function), or a nested node given by its own enumerable properties in
insertion order.  Functions are pure: `(previousLeafState, payload) -> value`;
an `init` function is called with both arguments undefined. -/
inductive AVal where
  | fn (f : JVal → JVal → JVal)
  | node (entries : List (String × AVal))

/-- Key lookup in an action-tree node (own properties only). -/
def lookupA : List (String × AVal) → String → Option AVal
  | [], _ => none
  | (k', v) :: rest, k => if k' = k then some v else lookupA rest k

/-- The value of `tree.init ? tree.init() : undefined` for a node:
an `init` function yields its result on undefined arguments; an `init` key
holding an object is truthy but not callable, so calling it raises a
TypeError; an absent `init` yields undefined. -/
def initValOf (entries : List (String × AVal)) : Except JSError JVal :=
  match lookupA entries "init" with
  | some (.fn f) => .ok (f .undef .undef)
  | some (.node _) => .error .typeError
  | none => .ok JVal.undef

/-- `state[key] || \x7b\x7d`: the existing child value when truthy, else a
freshly allocated empty object, together with the possibly extended heap. -/
def childState (o : Obj) (k : String) (h : Heap) : JVal × Heap :=
  if truthy (Obj.get o k) then (Obj.get o k, h)
  else (.ref (h.alloc []).1, (h.alloc []).2)

mutual

/-- `genStateTree(tree, state)` (src/index.js lines 5-18).  Iterating a
function value visits no own enumerable keys and returns the state unchanged. -/
def genStateTree : AVal → JVal → Heap → Except JSError (JVal × Heap)
  | .fn _, state, h => .ok (state, h)
  | .node entries, state, h => genEntries (initValOf entries) entries state h

/-- The loop body of `genStateTree`, iterating the own enumerable keys of
`tree` in insertion order.  `ini` is the (pure, hence precomputable) value of
`tree.init ? tree.init() : undefined` for the node whose entries are being
iterated.  A function-valued key replaces the whole state being built by
`ini`; a node-valued key performs the two property writes of the source
(first `state[key] = state[key] || \x7b\x7d`, then the assignment of the
recursive result; the allocation in `childState` does not move the object at
`a`, so `o` is still its current value at the first write), and in strict
mode both property accesses require `state` to be an object, otherwise a
TypeError is raised. -/
def genEntries (ini : Except JSError JVal) :
    List (String × AVal) → JVal → Heap → Except JSError (JVal × Heap)
  | [], state, h => .ok (state, h)
  | (k, v) :: rest, state, h =>
    match v with
    | .fn _ =>
      match ini with
      | .error e => .error e
      | .ok w => genEntries ini rest w h
    | .node _ =>
      match state with
      | .ref a =>
        match h.lookup a with
        | some o =>
          match genStateTree v (childState o k h).1
              ((childState o k h).2.update a (Obj.set o k (childState o k h).1)) with
          | .error e => .error e
          | .ok (w, h3) =>
            match h3.lookup a with
            | some o3 => genEntries ini rest (.ref a) (h3.update a (Obj.set o3 k w))
            | none => .error .typeError
        | none => .error .typeError
      | _ => .error .typeError

end

/-- `genStateTree(tree)` with the defaulted second argument: a fresh empty
object is allocated for `state = \x7b\x7d`. -/
def genStateTreeTop (entries : List (String × AVal)) (h : Heap) : Except JSError (JVal × Heap) :=
  let p := h.alloc []
  genStateTree (.node entries) (.ref p.1) p.2

/-! ## Dispatch engine -/

/-- The type of the functions chained by middleware composition:
`(state, payload) -> newState`, with the ambient object heap threaded
explicitly and exceptions made explicit. -/
abbrev KFn := JVal → JVal → Heap → Except JSError (JVal × Heap)

/-- A registered middleware entry: `(appliedPath, next, store) -> fn`.
The `store` argument that the source passes through is omitted from the type
(a faithful type would be cyclic: the store owns the middleware list); no
claim concerns a middleware that uses it. -/
abbrev Middleware := String → KFn → KFn

/-- Split a character list at every occurrence of the separator character,
keeping empty groups, exactly as `"".split(sep)` does in JS. -/
def splitOnChar (c : Char) : List Char → List (List Char)
  | [] => [[]]
  | x :: rest =>
    match splitOnChar c rest with
    | [] => if x = c then [[], []] else [[x]]
    | g :: gs => if x = c then [] :: g :: gs else (x :: g) :: gs

/-- `path.split(".")`: dot-separated fragments; the empty string yields one
empty fragment, exactly as in JS. -/
def splitPath (s : String) : List String :=
  (splitOnChar '.' s.toList).map (fun g => String.mk g)

/-- `s.indexOf(d) === 0`: `d` is a plain string prefix of `s`. -/
def jsStartsWith (s d : String) : Bool := List.isPrefixOf d.toList s.toList

/-- One step of the fold `frags.reduce(..., actions)` in `dispatch`
(src/index.js lines 47-55): look up the fragment; a falsy result (an absent
own property reads as undefined) throws.  Own properties of function values
are not modeled (inherited `Function.prototype` members are outside the
model). -/
def resolveStep (acc : AVal) (frag : String) : Option AVal :=
  match acc with
  | .node es => lookupA es frag
  | .fn _ => none

/-- Full path resolution in `dispatch`: fold all fragments over the action
tree, then require the result to be a function (lines 47-59).  `none` means
the TypeError path is taken and the path-resolution Error is raised. -/
def resolveFn (acts : AVal) (frags : List String) : Option (JVal → JVal → JVal) :=
  match frags.foldlM resolveStep acts with
  | some (.fn f) => some f
  | _ => none

/-- `setValueAtPath(subTree, frags)` (src/index.js lines 67-77), closed over
the resolved `action` and the `payload`.  With more than one fragment left it
reads `subTree[frag]`, recurses, and writes the result back; with at most one
fragment left it writes `action(subTree[frag], payload)`.  Shifting an empty
fragment list yields the key "undefined" (JS stringifies the undefined key).
In strict mode both forms require `subTree` to be an object. -/
def setValueAtPath (action : JVal → JVal → JVal) (payload : JVal) :
    List String → JVal → Heap → Except JSError (JVal × Heap)
  | [], subTree, h => writeLeaf subTree "undefined" h
  | [k], subTree, h => writeLeaf subTree k h
  | k :: k2 :: rest, subTree, h =>
    match subTree with
    | .ref a =>
      match h.lookup a with
      | some o =>
        match setValueAtPath action payload (k2 :: rest) (Obj.get o k) h with
        | .error e => .error e
        | .ok (v, h2) =>
          match h2.lookup a with
          | some o2 => .ok (.ref a, h2.update a (Obj.set o2 k v))
          | none => .error .typeError
      | none => .error .typeError
    | _ => .error .typeError
where
  /-- The final assignment `subTree[frag] = action(subTree[frag], payload)`,
  returning `subTree`. -/
  writeLeaf (subTree : JVal) (k : String) (h : Heap) : Except JSError (JVal × Heap) :=
    match subTree with
    | .ref a =>
      match h.lookup a with
      | some o => .ok (.ref a, h.update a (Obj.set o k (action (Obj.get o k) payload)))
      | none => .error .typeError
    | _ => .error .typeError

/-- `wrappedAction` built by `dispatch` (src/index.js lines 42-82): resolve
the path against the action tree when the innermost function is invoked; on
failure raise the Error that carries the offending path; on success pop the
final fragment and mutate the addressed state entry. -/
def wrappedAction (acts : AVal) (path : String) : KFn :=
  fun entireState payload h =>
    match resolveFn acts (splitPath path) with
    | none => .error (.pathError path)
    | some action => setValueAtPath action payload (splitPath path).dropLast entireState h

/-- `middlewares.reduceRight((next, middleware) => middleware(path, next, store),
wrappedAction)` (lines 84-86): the first-attached middleware ends up outermost,
the last-attached one wraps the base most tightly. -/
def composeChain (mids : List Middleware) (path : String) (base : KFn) : KFn :=
  mids.foldr (fun m next => m path next) base

/-- The effective function a dispatch invokes, applied to the current state
and the payload (lines 84-88). -/
def dispatchFn (acts : AVal) (mids : List Middleware) (path : String) : KFn :=
  composeChain mids path (wrappedAction acts path)

/-! ## Middleware attach -/

/-- The first argument of `attach`: either a bare middleware function
(global middleware), a single filter string, or a list of filter strings. -/
inductive PathFilter where
  | fnFilter (m : Middleware)
  | strFilter (s : String)
  | listFilter (ss : List String)

/-- The loop of `pathAwareMiddleware` (src/index.js lines 101-105):
`appliedPath.indexOf(d) === 0` holds exactly when `d` is a (plain string)
prefix of `appliedPath`; the first match wins. -/
def filterMatch (appliedPath : String) : List String → Bool
  | [] => false
  | d :: rest => if jsStartsWith appliedPath d then true else filterMatch appliedPath rest

/-- `pathAwareMiddleware` registered by `attach` (src/index.js lines 92-108):
a function-valued `desiredPath` fully replaces the gating; otherwise a string
is coerced to a one-element list and the middleware wraps the dispatch exactly
when the applied path starts with one of the filter strings, else `next` is
returned unchanged. -/
def pathAwareMiddleware (desiredPath : PathFilter) (middleware : Middleware) : Middleware :=
  fun appliedPath next =>
    match desiredPath with
    | .fnFilter f => f appliedPath next
    | .strFilter s =>
      if filterMatch appliedPath [s] then middleware appliedPath next else next
    | .listFilter ss =>
      if filterMatch appliedPath ss then middleware appliedPath next else next

/-! ## The store -/

/-- `Object.assign(target, source)` restricted to the shapes the claims use:
the source is given as a list of key/value pairs (its own enumerable
properties).  An undefined or null target raises a TypeError; a primitive
target is boxed and the (discarded) box receives the properties, so the heap
is unchanged. -/
def jsObjectAssign (h : Heap) (target : JVal) (src : Obj) : Except JSError Heap :=
  match target with
  | .ref a =>
    match h.lookup a with
    | some o => .ok (h.update a (src.foldl (fun acc kv => Obj.set acc kv.1 kv.2) o))
    | none => .error .typeError
  | .undef => .error .typeError
  | .jnull => .error .typeError
  | _ => .ok h

/-- The own enumerable properties of a value used as an `Object.assign`
source: an object contributes its entries; undefined, null and the primitives
used by the claims contribute none.  (String index properties are outside the
model.) -/
def srcEntries (h : Heap) : JVal → Obj
  | .ref b => (h.lookup b).getD []
  | _ => []

/-- The closure state of one store instance: the retained `state` binding,
the `actions` tree (its root entries), the middleware list and the object
heap. -/
structure StoreSt where
  state : JVal
  actions : List (String × AVal)
  mids : List Middleware
  heap : Heap

/-- `Store(actions, middlewares, initialState)` (src/index.js lines 21-31):
generate the state tree from the actions (with a fresh defaulted `state`
argument), then shallow-overlay `initialState` onto it with `Object.assign`. -/
def Store.create (acts : List (String × AVal)) (mids : List Middleware)
    (initialState : Obj) (h : Heap) : Except JSError StoreSt :=
  match genStateTreeTop acts h with
  | .error e => .error e
  | .ok (st, h1) =>
    match jsObjectAssign h1 st initialState with
    | .error e => .error e
    | .ok h2 => .ok ⟨st, acts, mids, h2⟩

/-- Calling the store instance (src/index.js lines 25-31): with a truthy
argument, `Object.assign(state, stateOverrides)`; always returns the retained
`state` binding. -/
def StoreSt.call (st : StoreSt) (arg : Option JVal) : Except JSError (JVal × StoreSt) :=
  match arg with
  | none => .ok (st.state, st)
  | some ov =>
    if truthy ov then
      match jsObjectAssign st.heap st.state (srcEntries st.heap ov) with
      | .ok h' => .ok (st.state, { st with heap := h' })
      | .error e => .error e
    else .ok (st.state, st)

/-- Key assignment on action-tree entries, mirroring what `Object.assign`
does to the actions object: replace the first binding in place or append. -/
def alistSet : List (String × AVal) → String → AVal → List (String × AVal)
  | [], k, v => [(k, v)]
  | (k', v') :: rest, k, v =>
    if k' = k then (k, v) :: rest else (k', v') :: alistSet rest k v

/-- `Object.assign(actions, newActions)` on the root entries. -/
def assignA (base news : List (String × AVal)) : List (String × AVal) :=
  news.foldl (fun acc kv => alistSet acc kv.1 kv.2) base

/-- `newStore.actions(newActions)` (src/index.js lines 33-39): with an
argument, merge it into the action tree, run the generator over only the new
actions against the existing state (the generated value is discarded), and
return the updated tree. -/
def StoreSt.actionsMerge (st : StoreSt) (newActions : Option (List (String × AVal))) :
    Except JSError (List (String × AVal) × StoreSt) :=
  match newActions with
  | none => .ok (st.actions, st)
  | some news =>
    let A2 := assignA st.actions news
    match genStateTree (.node news) st.state st.heap with
    | .error e => .error e
    | .ok (_, h') => .ok (A2, { st with actions := A2, heap := h' })

/-- `newStore.dispatch(path, payload)` (src/index.js lines 41-89): invoke the
composed chain on the retained state and the payload.  The `state` binding is
never reassigned; only the heap advances.  (On an exception the partial heap
mutations are not modeled; no claim observes state after a failed dispatch.) -/
def StoreSt.dispatch (st : StoreSt) (path : String) (payload : JVal) :
    Except JSError JVal × StoreSt :=
  match dispatchFn (.node st.actions) st.mids path st.state payload st.heap with
  | .ok (v, h') => (.ok v, { st with heap := h' })
  | .error e => (.error e, st)

/-- `newStore.attach(desiredPath, middleware)` (src/index.js lines 91-120):
push the path-aware wrapper onto the end of the middleware list.  (For a
function-valued filter the second argument is never referenced, matching the
one-argument call shape `attach(middlewareFn)`.  The `detach` capability is
not needed by any claim.) -/
def StoreSt.attach (st : StoreSt) (desiredPath : PathFilter) (middleware : Middleware) :
    StoreSt :=
  { st with mids := st.mids ++ [pathAwareMiddleware desiredPath middleware] }

/-! ## Basic object and heap lemmas -/

/-- The keys of an association list, in order. -/
def keysOf {α : Type} (o : List (String × α)) : List String := o.map Prod.fst

theorem Obj.get_set_self (o : Obj) (k : String) (v : JVal) :
    Obj.get (Obj.set o k v) k = v := by
  induction o with
  | nil => simp [Obj.set, Obj.get]
  | cons p rest ih =>
    by_cases hk : p.1 = k <;>
      simp [Obj.set, Obj.get, hk, ih]

theorem Obj.get_set_ne (o : Obj) (k k' : String) (v : JVal) (hk : k' ≠ k) :
    Obj.get (Obj.set o k v) k' = Obj.get o k' := by
  induction o with
  | nil =>
    have : ¬ k = k' := fun h => hk h.symm
    simp [Obj.set, Obj.get, this]
  | cons p rest ih =>
    have hkk : ¬ k = k' := fun h => hk h.symm
    by_cases h1 : p.1 = k
    · simp [Obj.set, Obj.get, h1, hkk]
    · simp only [Obj.set, h1, if_false, Obj.get]
      by_cases h2 : p.1 = k' <;> simp [h2, ih]

theorem Obj.get_of_not_mem (o : Obj) (k : String) (h : k ∉ keysOf o) :
    Obj.get o k = .undef := by
  induction o with
  | nil => rfl
  | cons p rest ih =>
    simp only [keysOf, List.map_cons, List.mem_cons] at h
    push_neg at h
    have h1 : ¬ p.1 = k := fun hh => h.1 hh.symm
    simp [Obj.get, h1, ih (by simpa [keysOf] using h.2)]

theorem Obj.set_get_of_mem (o : Obj) (k : String) (h : k ∈ keysOf o) :
    Obj.set o k (Obj.get o k) = o := by
  induction o with
  | nil => simp [keysOf] at h
  | cons p rest ih =>
    by_cases h1 : p.1 = k
    · obtain ⟨k0, v0⟩ := p
      simp only at h1
      subst h1
      simp [Obj.set, Obj.get]
    · simp only [keysOf, List.map_cons, List.mem_cons] at h
      rcases h with h | h
      · exact absurd h.symm h1
      · simp [Obj.set, Obj.get, h1, ih (by simpa [keysOf] using h)]

theorem Obj.set_of_not_mem (o : Obj) (k : String) (v : JVal) (h : k ∉ keysOf o) :
    Obj.set o k v = o ++ [(k, v)] := by
  induction o with
  | nil => rfl
  | cons p rest ih =>
    simp only [keysOf, List.map_cons, List.mem_cons] at h
    push_neg at h
    have h1 : ¬ p.1 = k := fun hh => h.1 hh.symm
    simp [Obj.set, h1, ih (by simpa [keysOf] using h.2)]

theorem Obj.get_append_right (o rest : Obj) (k : String) (h : k ∉ keysOf o) :
    Obj.get (o ++ rest) k = Obj.get rest k := by
  induction o with
  | nil => rfl
  | cons p o' ih =>
    simp only [keysOf, List.map_cons, List.mem_cons] at h
    push_neg at h
    have h1 : ¬ p.1 = k := fun hh => h.1 hh.symm
    simpa [Obj.get, h1] using ih (by simpa [keysOf] using h.2)

theorem Obj.get_append_left (o rest : Obj) (k : String) (h : k ∈ keysOf o) :
    Obj.get (o ++ rest) k = Obj.get o k := by
  induction o with
  | nil => simp [keysOf] at h
  | cons p o' ih =>
    by_cases h1 : p.1 = k
    · simp [Obj.get, h1]
    · simp only [keysOf, List.map_cons, List.mem_cons] at h
      rcases h with h | h
      · exact absurd h.symm h1
      · simpa [Obj.get, h1] using ih (by simpa [keysOf] using h)

theorem Heap.lookup_lt_size {h : Heap} {a : Addr} {o : Obj} (hl : h.lookup a = some o) :
    a < h.size := by
  by_contra hge
  rw [Heap.lookup, List.getElem?_eq_none (by simpa [Heap.size] using hge)] at hl
  exact Option.noConfusion hl

theorem Heap.lookup_update_self {h : Heap} {a : Addr} (o : Obj) (ha : a < h.size) :
    (h.update a o).lookup a = some o := by
  have ha' : a < h.objs.length := ha
  simp [Heap.lookup, Heap.update, List.getElem?_set_self ha']

theorem Heap.lookup_update_ne (h : Heap) (a b : Addr) (o : Obj) (hab : b ≠ a) :
    (h.update a o).lookup b = h.lookup b := by
  simp [Heap.lookup, Heap.update, List.getElem?_set_ne (fun hh => hab hh.symm)]

theorem Heap.update_eq_self {h : Heap} {a : Addr} {o : Obj} (hl : h.lookup a = some o) :
    h.update a o = h := by
  have ha : a < h.size := Heap.lookup_lt_size hl
  cases h with
  | mk objs =>
    simp only [Heap.update, Heap.mk.injEq]
    apply List.ext_getElem?
    intro i
    rw [List.getElem?_set]
    by_cases hia : a = i
    · subst hia
      have hv : objs[a]? = some o := hl
      simp [Heap.size] at ha
      simp [ha, hv]
    · simp [hia]

theorem Heap.size_update (h : Heap) (a : Addr) (o : Obj) :
    (h.update a o).size = h.size := by
  simp [Heap.update, Heap.size]

theorem Heap.alloc_fst (h : Heap) (o : Obj) : (h.alloc o).1 = h.size := rfl

theorem Heap.size_alloc (h : Heap) (o : Obj) : (h.alloc o).2.size = h.size + 1 := by
  simp [Heap.alloc, Heap.size]

theorem Heap.lookup_alloc_lt (h : Heap) (o : Obj) (b : Addr) (hb : b < h.size) :
    (h.alloc o).2.lookup b = h.lookup b := by
  simp [Heap.alloc, Heap.lookup, List.getElem?_append_left (by simpa [Heap.size] using hb)]

theorem Heap.lookup_alloc_self (h : Heap) (o : Obj) :
    (h.alloc o).2.lookup (h.alloc o).1 = some o := by
  simp only [Heap.alloc, Heap.lookup]
  exact List.getElem?_concat_length ..

/-! ## Claim C1: path-resolution errors and middleware interception -/

theorem writeLeaf_error_typeError (action : JVal → JVal → JVal) (payload : JVal)
    (subTree : JVal) (k : String) (h : Heap) (e : JSError)
    (he : setValueAtPath.writeLeaf action payload subTree k h = .error e) :
    e = .typeError := by
  cases subTree with
  | ref a =>
    cases hl : h.lookup a with
    | none => simp [setValueAtPath.writeLeaf, hl] at he; exact he.symm
    | some o => simp [setValueAtPath.writeLeaf, hl] at he
  | undef => simp [setValueAtPath.writeLeaf] at he; exact he.symm
  | jnull => simp [setValueAtPath.writeLeaf] at he; exact he.symm
  | bool b => simp [setValueAtPath.writeLeaf] at he; exact he.symm
  | num n => simp [setValueAtPath.writeLeaf] at he; exact he.symm
  | str s => simp [setValueAtPath.writeLeaf] at he; exact he.symm

/-- Once resolution has succeeded, the mutation phase can only raise a raw
TypeError, never the path-resolution Error. -/
theorem setValueAtPath_error_typeError (action : JVal → JVal → JVal) (payload : JVal) :
    ∀ (fr : List String) (v : JVal) (h : Heap) (e : JSError),
      setValueAtPath action payload fr v h = .error e → e = .typeError := by
  intro fr
  induction fr with
  | nil =>
    intro v h e he
    exact writeLeaf_error_typeError _ _ _ _ _ _ he
  | cons k rest ih =>
    intro v h e he
    cases rest with
    | nil => exact writeLeaf_error_typeError _ _ _ _ _ _ he
    | cons k2 rest2 =>
      cases v with
      | ref a =>
        simp only [setValueAtPath] at he
        cases hl : h.lookup a with
        | none => simp [hl] at he; exact he.symm
        | some o =>
          simp only [hl] at he
          cases hrec : setValueAtPath action payload (k2 :: rest2) (Obj.get o k) h with
          | error e' =>
            simp only [hrec] at he
            cases he
            exact ih _ _ _ hrec
          | ok p =>
            simp only [hrec] at he
            cases hl2 : p.2.lookup a with
            | none => simp [hl2] at he; exact he.symm
            | some o2 => simp [hl2] at he
      | undef => simp [setValueAtPath] at he; exact he.symm
      | jnull => simp [setValueAtPath] at he; exact he.symm
      | bool b => simp [setValueAtPath] at he; exact he.symm
      | num n => simp [setValueAtPath] at he; exact he.symm
      | str s => simp [setValueAtPath] at he; exact he.symm

/-- Claim C1: with no middleware attached, dispatch raises the
path-resolution Error, carrying exactly the dispatched path string, if and
only if the path does not resolve to a function in the action tree (and never
raises it for a resolvable path); and a middleware that ignores `next`
(never calls through to the base transition) makes the dispatch of ANY path,
resolvable or not, return exactly what that middleware returns, the
middleware observing the exact dispatched path string. -/
theorem c1_path_resolution_error (acts : AVal) (path : String) (state payload : JVal)
    (h : Heap) :
    (dispatchFn acts [] path state payload h = .error (.pathError path)
        ↔ resolveFn acts (splitPath path) = none)
    ∧ (∀ q, dispatchFn acts [] path state payload h = .error (.pathError q) → q = path)
    ∧ (∀ k : String → KFn,
        dispatchFn acts [fun p _next => k p] path state payload h = k path state payload h) := by
  have hbase : dispatchFn acts [] path state payload h
      = wrappedAction acts path state payload h := rfl
  refine ⟨?_, ?_, fun k => rfl⟩
  · rw [hbase]
    unfold wrappedAction
    cases hres : resolveFn acts (splitPath path) with
    | none => simp
    | some f =>
      simp only
      constructor
      · intro he
        have := setValueAtPath_error_typeError f payload _ _ _ _ he
        exact absurd this (by simp)
      · intro he
        exact Option.noConfusion he
  · intro q hq
    rw [hbase] at hq
    unfold wrappedAction at hq
    cases hres : resolveFn acts (splitPath path) with
    | none =>
      rw [hres] at hq
      simp only at hq
      cases hq
      rfl
    | some f =>
      rw [hres] at hq
      simp only at hq
      have := setValueAtPath_error_typeError f payload _ _ _ _ hq
      exact absurd this (by simp)

def c1Acts : List (String × AVal) := [("todos", .node [("add", .fn (fun _ p => p))])]

def c1Heap : Heap := ⟨[[("todos", JVal.undef)]]⟩

/-- Witness for C1: the unresolvable path "a.pseudo.action" raises the
path-resolution Error carrying that path when no middleware is attached, and
with an intercepting middleware dispatch instead returns the middleware
result, which records the exact path string. -/
theorem c1_path_resolution_error_witness :
    dispatchFn (.node c1Acts) [] "a.pseudo.action" (.ref 0) .undef c1Heap
        = .error (.pathError "a.pseudo.action")
    ∧ dispatchFn (.node c1Acts)
        [fun p _next => fun _s _pay hh => .ok (.str p, hh)]
        "a.pseudo.action" (.ref 0) .undef c1Heap
        = .ok (.str "a.pseudo.action", c1Heap) := by
  constructor
  · exact (c1_path_resolution_error (.node c1Acts) "a.pseudo.action" (.ref 0) .undef
      c1Heap).1.mpr rfl
  · exact ((c1_path_resolution_error (.node c1Acts) "a.pseudo.action" (.ref 0) .undef
      c1Heap).2.2 (fun p => fun _s _pay hh => .ok (.str p, hh))).trans rfl

/-! ## Claim C2: leaf collapse in the state-tree generator -/

/-- Every enumerable key of the node holds a function directly. -/
def allFn : List (String × AVal) → Bool
  | [] => true
  | (_, v) :: rest =>
    match v with
    | .fn _ => allFn rest
    | .node _ => false

theorem genEntries_allFn (i : JVal) :
    ∀ (es : List (String × AVal)), allFn es = true → ∀ (st : JVal) (h : Heap),
      genEntries (.ok i) es st h = .ok ((if es.isEmpty then st else i), h) := by
  intro es
  induction es with
  | nil =>
    intro _ st h
    simp [genEntries]
  | cons p rest ih =>
    intro hfn st h
    obtain ⟨k, v⟩ := p
    cases v with
    | fn f =>
      have hfr : allFn rest = true := by simpa [allFn] using hfn
      rw [genEntries]
      simp only [ih hfr i h]
      cases rest <;> simp
    | node sub => simp [allFn] at hfn

/-- Claim C2 (amended): in a node every one of whose enumerable keys maps
directly to a function (at least one key), the whole state object being built
at that level is replaced: the generator returns exactly the result of the
node `init` function when an `init` key is present (else undefined),
regardless of the incoming state and of how many sibling action functions the
node contains, and leaves the heap untouched.  (When a nested-mapping key
follows a function key, the generator instead raises a TypeError on the
collapsed non-object state; see the counterexample.) -/
theorem c2_leaf_collapse (entries : List (String × AVal)) (state : JVal) (h : Heap)
    (hne : entries.isEmpty = false) (hfn : allFn entries = true) (i : JVal)
    (hini : initValOf entries = .ok i) :
    genStateTree (.node entries) state h = .ok (i, h) := by
  rw [genStateTree, hini, genEntries_allFn i entries hfn state h, hne]
  simp

def c2MixTree : List (String × AVal) :=
  [("a", .fn (fun _ _ => .undef)), ("b", .node [("c", .fn (fun _ _ => .undef))])]

def c2Heap : Heap := ⟨[[]]⟩

/-- Counterexample to C2 as stated: in `c2MixTree` the key "a" maps directly
to a function and the node has no `init`, so the claim predicts that the
state built for this level is replaced by undefined (with the node-valued
sibling key "b" contributing a sub-mapping); instead, because "b" is iterated
after the collapse, the source reads a property of undefined and the
generator raises a TypeError rather than producing any state. -/
theorem c2_leaf_collapse_counterexample :
    genStateTree (.node c2MixTree) (.ref 0) c2Heap = .error .typeError := rfl

/-- Witness for the amended C2: a three-function leaf node (init, start,
stop) collapses to the init result "hi" whatever the incoming state, without
touching the heap. -/
theorem c2_leaf_collapse_witness :
    genStateTree (.node [("init", .fn (fun _ _ => .str "hi")),
        ("start", .fn (fun _ _ => .undef)), ("stop", .fn (fun _ _ => .undef))])
      (.ref 0) ⟨[[]]⟩ = .ok (.str "hi", ⟨[[]]⟩) :=
  c2_leaf_collapse [("init", .fn (fun _ _ => .str "hi")),
      ("start", .fn (fun _ _ => .undef)), ("stop", .fn (fun _ _ => .undef))]
    (.ref 0) ⟨[[]]⟩ rfl rfl (.str "hi") rfl

/-! ## Claim C3: dispatch mutates a single point of the heap -/

/-- The final fragment passed to the leaf write of `setValueAtPath`
("undefined" when shifting an empty fragment list). -/
def lastKey (fr : List String) : String := fr.getLastD "undefined"

/-- The chain of object addresses `setValueAtPath` descends through before
its final write: the starting object followed by the object read at each
listed fragment. -/
def walkSpine (h : Heap) (a : Addr) : List String → Option (List Addr)
  | [] =>
    match h.lookup a with
    | some _ => some [a]
    | none => none
  | k :: ks =>
    match h.lookup a with
    | some o =>
      match Obj.get o k with
      | .ref b =>
        match walkSpine h b ks with
        | some spine => some (a :: spine)
        | none => none
      | _ => none
    | none => none

theorem walkSpine_shape {h : Heap} {a : Addr} {ks : List String} {spine : List Addr}
    (hw : walkSpine h a ks = some spine) : ∃ t, spine = a :: t := by
  cases ks with
  | nil =>
    cases hl : h.lookup a with
    | none => simp [walkSpine, hl] at hw
    | some o =>
      simp [walkSpine, hl] at hw
      exact ⟨[], hw.symm⟩
  | cons k ks' =>
    cases hl : h.lookup a with
    | none => simp [walkSpine, hl] at hw
    | some o =>
      simp only [walkSpine, hl] at hw
      cases hg : Obj.get o k with
      | ref b =>
        rw [hg] at hw
        simp only at hw
        cases hw2 : walkSpine h b ks' with
        | none => simp [hw2] at hw
        | some sp' =>
          rw [hw2] at hw
          simp at hw
          exact ⟨sp', hw.symm⟩
      | undef => rw [hg] at hw; simp at hw
      | jnull => rw [hg] at hw; simp at hw
      | bool b => rw [hg] at hw; simp at hw
      | num n => rw [hg] at hw; simp at hw
      | str s => rw [hg] at hw; simp at hw

theorem getLastD_default_irrel {α : Type} {l : List α} (hne : l ≠ []) (d d' : α) :
    l.getLastD d = l.getLastD d' := by
  rw [List.getLastD_eq_getLast?, List.getLastD_eq_getLast?]
  cases hl : l.getLast? with
  | none => exact absurd (List.getLast?_eq_none_iff.mp hl) hne
  | some x => rfl

theorem getLastD_mem {α : Type} {l : List α} (hne : l ≠ []) (d : α) :
    l.getLastD d ∈ l := by
  rw [List.getLastD_eq_getLast?]
  cases hl : l.getLast? with
  | none => exact absurd (List.getLast?_eq_none_iff.mp hl) hne
  | some x =>
    simp only [Option.getD_some]
    exact List.mem_of_mem_getLast? (by rw [hl]; rfl)

theorem Obj.mem_of_get_ne_undef {o : Obj} {k : String} (hg : Obj.get o k ≠ .undef) :
    k ∈ keysOf o := by
  by_contra hk
  exact hg (Obj.get_of_not_mem o k hk)

/-- The whole heap effect of a successful `setValueAtPath` is one point
update: every intermediate fragment writes back the very reference it read,
so only the final spine object changes, at the final key. -/
theorem setValueAtPath_spec (act : JVal → JVal → JVal) (payload : JVal) :
    ∀ (fr : List String) (a : Addr) (h : Heap) (spine : List Addr),
      walkSpine h a fr.dropLast = some spine → spine.Nodup →
      ∃ o, h.lookup (spine.getLastD a) = some o ∧
        setValueAtPath act payload fr (.ref a) h =
          .ok (.ref a, h.update (spine.getLastD a)
            (Obj.set o (lastKey fr) (act (Obj.get o (lastKey fr)) payload)))
  | [], a, h, spine, hw, _ => by
    cases hl : h.lookup a with
    | none => simp [walkSpine, hl] at hw
    | some o =>
      simp [walkSpine, hl] at hw
      subst hw
      exact ⟨o, by simpa using hl, by simp [setValueAtPath, setValueAtPath.writeLeaf, hl, lastKey]⟩
  | [k], a, h, spine, hw, _ => by
    cases hl : h.lookup a with
    | none => simp [walkSpine, hl] at hw
    | some o =>
      simp [walkSpine, hl] at hw
      subst hw
      exact ⟨o, by simpa using hl, by simp [setValueAtPath, setValueAtPath.writeLeaf, hl, lastKey]⟩
  | k :: k2 :: rest, a, h, spine, hw, hnd => by
    have hdl : (k :: k2 :: rest).dropLast = k :: (k2 :: rest).dropLast := rfl
    rw [hdl] at hw
    cases hl : h.lookup a with
    | none => simp [walkSpine, hl] at hw
    | some o0 =>
      simp only [walkSpine, hl] at hw
      cases hg : Obj.get o0 k with
      | ref b =>
        rw [hg] at hw
        simp only at hw
        cases hw2 : walkSpine h b (k2 :: rest).dropLast with
        | none => rw [hw2] at hw; simp at hw
        | some spine' =>
          rw [hw2] at hw
          simp only [Option.some.injEq] at hw
          subst hw
          have hnd' : spine'.Nodup := (List.nodup_cons.mp hnd).2
          have hane : a ∉ spine' := (List.nodup_cons.mp hnd).1
          obtain ⟨sp't, hsp'⟩ := walkSpine_shape hw2
          have hne' : spine' ≠ [] := by simp [hsp']
          obtain ⟨o', ho', hrec⟩ :=
            setValueAtPath_spec act payload (k2 :: rest) b h spine' hw2 hnd'
          have hla : (a :: spine').getLastD a = spine'.getLastD b := by
            rw [List.getLastD_cons]
            exact getLastD_default_irrel hne' a b
          have hlane : a ≠ spine'.getLastD b := by
            intro hcontra
            exact hane (hcontra ▸ getLastD_mem hne' b)
          refine ⟨o', by rw [hla]; exact ho', ?_⟩
          rw [setValueAtPath]
          rw [hl]
          simp only
          rw [hg, hrec]
          simp only
          have hlook2 : (h.update (spine'.getLastD b)
              (Obj.set o' (lastKey (k2 :: rest))
                (act (Obj.get o' (lastKey (k2 :: rest))) payload))).lookup a
              = some o0 := by
            rw [Heap.lookup_update_ne _ _ _ _ hlane]
            exact hl
          rw [hlook2]
          simp only
          have hset : Obj.set o0 k (.ref b) = o0 := by
            have : Obj.get o0 k ≠ .undef := by rw [hg]; simp
            have hmem := Obj.mem_of_get_ne_undef this
            calc Obj.set o0 k (.ref b) = Obj.set o0 k (Obj.get o0 k) := by rw [hg]
              _ = o0 := Obj.set_get_of_mem o0 k hmem
          rw [hset]
          rw [Heap.update_eq_self hlook2]
          rw [hla]
          have hlk : lastKey (k :: k2 :: rest) = lastKey (k2 :: rest) := by
            simp [lastKey]
          rw [hlk]
      | undef => rw [hg] at hw; simp at hw
      | jnull => rw [hg] at hw; simp at hw
      | bool bb => rw [hg] at hw; simp at hw
      | num n => rw [hg] at hw; simp at hw
      | str s => rw [hg] at hw; simp at hw

/-- Claim C3: for a store with no middleware whose state tree is
shape-congruent with the dispatched valid path (the path resolves to a
transition function in the action tree and the non-final fragments walk
through distinct state objects), dispatch returns the very state reference
the accessor held before the dispatch (not a copy), the retained state
binding is unchanged, the entire heap effect is one point update of the
deepest walked object at the final non-action fragment, every object at any
other address keeps its binding (so every sibling sub-object retains its
prior reference identity and contents), and within the updated object every
key other than the written one keeps its previous value. -/
theorem c3_dispatch_sibling_identity (acts : List (String × AVal)) (path : String)
    (payload : JVal) (a : Addr) (h : Heap) (f : JVal → JVal → JVal) (spine : List Addr)
    (hres : resolveFn (.node acts) (splitPath path) = some f)
    (hspine : walkSpine h a ((splitPath path).dropLast).dropLast = some spine)
    (hnd : spine.Nodup) :
    ∃ o, h.lookup (spine.getLastD a) = some o
    ∧ (StoreSt.dispatch ⟨.ref a, acts, [], h⟩ path payload).1 = .ok (.ref a)
    ∧ (StoreSt.dispatch ⟨.ref a, acts, [], h⟩ path payload).2.state = .ref a
    ∧ (StoreSt.dispatch ⟨.ref a, acts, [], h⟩ path payload).2.heap
        = h.update (spine.getLastD a)
            (Obj.set o (lastKey (splitPath path).dropLast)
              (f (Obj.get o (lastKey (splitPath path).dropLast)) payload))
    ∧ (∀ b, b ≠ spine.getLastD a →
        (StoreSt.dispatch ⟨.ref a, acts, [], h⟩ path payload).2.heap.lookup b = h.lookup b)
    ∧ (∀ k, k ≠ lastKey (splitPath path).dropLast →
        Obj.get (Obj.set o (lastKey (splitPath path).dropLast)
          (f (Obj.get o (lastKey (splitPath path).dropLast)) payload)) k = Obj.get o k) := by
  obtain ⟨o, ho, hsv⟩ :=
    setValueAtPath_spec f payload (splitPath path).dropLast a h spine hspine hnd
  have hw0 : dispatchFn (.node acts) [] path (.ref a) payload h
      = setValueAtPath f payload (splitPath path).dropLast (.ref a) h := by
    show wrappedAction (.node acts) path (.ref a) payload h = _
    unfold wrappedAction
    rw [hres]
  have hd : StoreSt.dispatch ⟨.ref a, acts, [], h⟩ path payload
      = (.ok (.ref a), ⟨.ref a, acts, [],
          h.update (spine.getLastD a)
            (Obj.set o (lastKey (splitPath path).dropLast)
              (f (Obj.get o (lastKey (splitPath path).dropLast)) payload))⟩) := by
    unfold StoreSt.dispatch
    rw [hw0, hsv]
  refine ⟨o, ho, ?_, ?_, ?_, ?_, ?_⟩
  · rw [hd]
  · rw [hd]
  · rw [hd]
  · intro b hb
    rw [hd]
    exact Heap.lookup_update_ne h _ b _ hb
  · intro k hk
    exact Obj.get_set_ne o _ k _ hk

def c3Acts : List (String × AVal) :=
  [("todos", .node [("list", .node [("add", .fn (fun _ p => p))]),
                    ("checkAll", .node [("toggle", .fn (fun prev _ => .bool (prev == .bool false)))])])]

def c3Heap : Heap := ⟨[[("todos", JVal.ref 1)], [("list", JVal.undef), ("checkAll", JVal.undef)]]⟩

def c3Store : StoreSt := ⟨.ref 0, c3Acts, [], c3Heap⟩

/-- Witness for C3: dispatching "todos.list.add" on a nested store returns
the retained root reference, keeps the state binding, and every object other
than the one holding the written leaf (address 1) keeps its heap binding. -/
theorem c3_dispatch_sibling_identity_witness :
    (c3Store.dispatch "todos.list.add" (.str "T")).1 = .ok (.ref 0)
    ∧ (c3Store.dispatch "todos.list.add" (.str "T")).2.state = .ref 0
    ∧ (c3Store.dispatch "todos.list.add" (.str "T")).2.heap.lookup 0 = c3Heap.lookup 0 := by
  obtain ⟨o, ho, h1, h2, h3, h4, h5⟩ :=
    c3_dispatch_sibling_identity c3Acts "todos.list.add" (.str "T") 0 c3Heap
      (fun _ p => p) [0, 1] rfl rfl (by decide)
  exact ⟨h1, h2, h4 0 (by decide)⟩

/-! ## Claim C4: what dispatch returns versus what the store retains -/

/-- Claim C4 (amended): every dispatch invokes the fully composed effective
function as `effective(S, payload)` on the current retained state and returns
its return value; but the retained binding `S` is NOT reassigned to that
return value: after dispatch the no-argument accessor still returns the
previous state reference, which coincides with the dispatch result only when
the chain returns that same retained reference (as the middleware-free base
transition does). -/
theorem c4_dispatch_returns_effective (st : StoreSt) (path : String) (payload : JVal) :
    (st.dispatch path payload).1
        = (dispatchFn (.node st.actions) st.mids path st.state payload st.heap).map Prod.fst
    ∧ (st.dispatch path payload).2.state = st.state
    ∧ ((st.dispatch path payload).2.call none).map Prod.fst = .ok st.state := by
  unfold StoreSt.dispatch
  cases hd : dispatchFn (.node st.actions) st.mids path st.state payload st.heap with
  | ok p => simp [StoreSt.call, Except.map]
  | error e => simp [StoreSt.call, Except.map]

def c4Acts : List (String × AVal) := [("todos", .node [("add", .fn (fun _ p => p))])]

/-- A middleware that short-circuits every dispatch and returns a freshly
allocated object instead of the state it was passed. -/
def c4Mid : Middleware :=
  fun _path _next => fun _s _pay h =>
    let q := h.alloc [("x", JVal.num 1)]
    .ok (.ref q.1, q.2)

def c4Store : StoreSt := ⟨.ref 0, c4Acts, [c4Mid], ⟨[[("todos", JVal.undef)]]⟩⟩

/-- Counterexample to C4 as stated: the middleware short-circuits and returns
a fresh object (address 1); dispatch returns that object, yet a subsequent
no-argument accessor call still returns the previously retained reference
(address 0) — the dispatch return value did not become the retained state. -/
theorem c4_dispatch_returns_effective_counterexample :
    (c4Store.dispatch "todos.add" .undef).1 = .ok (.ref 1)
    ∧ ((c4Store.dispatch "todos.add" .undef).2.call none).map Prod.fst = .ok (.ref 0)
    ∧ JVal.ref 1 ≠ JVal.ref 0 := by
  exact ⟨rfl, rfl, by decide⟩

/-! ## Claim C5: attach order and wrap order -/

/-- Folding an extended middleware list wraps the appended middleware most
tightly around the base. -/
theorem composeChain_append (mids : List Middleware) (m : Middleware) (path : String)
    (base : KFn) :
    composeChain (mids ++ [m]) path base = composeChain mids path (m path base) := by
  unfold composeChain
  rw [List.foldr_append]
  rfl

/-- Claim C5 (amended): attach always appends the new wrapper to the END of
the middleware list, and in the composed dispatch chain the NEWLY attached
(later) middleware wraps more tightly around the base than every previously
attached one: composing the extended list equals composing the old list
around the new wrapper already applied to the base, so the first-attached
middleware ends up outermost and is invoked first.  (The claim stated the
two directions the other way around.) -/
theorem c5_attach_append_order (st : StoreSt) (fl : PathFilter) (mw : Middleware) :
    (st.attach fl mw).mids = st.mids ++ [pathAwareMiddleware fl mw]
    ∧ ∀ (path : String) (base : KFn),
        composeChain (st.attach fl mw).mids path base
          = composeChain st.mids path (pathAwareMiddleware fl mw path base) := by
  exact ⟨rfl, fun path base => composeChain_append st.mids (pathAwareMiddleware fl mw) path base⟩

def c5MidA : Middleware := fun _ _ => fun _ _ h => .ok (.str "A", h)

def c5MidB : Middleware := fun _ _ => fun _ _ h => .ok (.str "B", h)

def c5Acts : List (String × AVal) := [("todos", .node [("add", .fn (fun _ p => p))])]

def c5Store : StoreSt :=
  ((⟨.ref 0, c5Acts, [], ⟨[[("todos", JVal.undef)]]⟩⟩ : StoreSt).attach
      (.fnFilter c5MidA) c5MidA).attach (.fnFilter c5MidB) c5MidB

/-- Counterexample to C5 as stated: middleware A is attached before B; both
short-circuit without calling through.  Were the earlier-attached middleware
the innermost one, the later-attached B would be invoked first and the
dispatch would return "B"; the source invokes the first-attached middleware
outermost, so the dispatch returns "A". -/
theorem c5_attach_append_order_counterexample :
    (c5Store.dispatch "todos.add" .undef).1 = .ok (.str "A")
    ∧ JVal.str "A" ≠ JVal.str "B" := by
  exact ⟨rfl, by decide⟩

/-! ## Claim C6: middleware path filters -/

theorem filterMatch_eq_any (p : String) (ds : List String) :
    filterMatch p ds = ds.any (fun d => jsStartsWith p d) := by
  induction ds with
  | nil => rfl
  | cons d rest ih =>
    by_cases hd : jsStartsWith p d = true
    · simp [filterMatch, hd]
    · simp only [Bool.not_eq_true] at hd
      simp [filterMatch, hd, ih]

/-- Claim C6 (amended): a middleware attached with a string filter (or list
of strings) wraps a dispatch exactly when the dispatched path starts with one
of the filter strings as a PLAIN string prefix — no fragment-boundary
requirement, so the filter "todo" does apply to the path "todos.add"; a
middleware attached with a single function argument wraps every dispatch;
and when no filter string matches, the registered wrapper returns the inner
`next` function unchanged, so the non-matching middleware has no effect on
the value, state, or heap produced by that dispatch. -/
theorem c6_filter_semantics :
    (∀ (d : String) (mw : Middleware) (p : String) (next : KFn),
      pathAwareMiddleware (.strFilter d) mw p next
        = if jsStartsWith p d then mw p next else next)
    ∧ (∀ (ds : List String) (mw : Middleware) (p : String) (next : KFn),
      pathAwareMiddleware (.listFilter ds) mw p next
        = if ds.any (fun d => jsStartsWith p d) then mw p next else next)
    ∧ (∀ (g mw : Middleware) (p : String) (next : KFn),
      pathAwareMiddleware (.fnFilter g) mw p next = g p next)
    ∧ (∀ (st : StoreSt) (d : String) (mw : Middleware) (path : String) (payload : JVal),
      jsStartsWith path d = false →
      ((st.attach (.strFilter d) mw).dispatch path payload).1
          = (st.dispatch path payload).1
      ∧ ((st.attach (.strFilter d) mw).dispatch path payload).2.state
          = (st.dispatch path payload).2.state
      ∧ ((st.attach (.strFilter d) mw).dispatch path payload).2.heap
          = (st.dispatch path payload).2.heap) := by
  have hstr : ∀ (d : String) (mw : Middleware) (p : String) (next : KFn),
      pathAwareMiddleware (.strFilter d) mw p next
        = if jsStartsWith p d then mw p next else next := by
    intro d mw p next
    show (if filterMatch p [d] then mw p next else next) = _
    rw [filterMatch_eq_any]
    simp
  refine ⟨hstr, ?_, fun g mw p next => rfl, ?_⟩
  · intro ds mw p next
    show (if filterMatch p ds then mw p next else next) = _
    rw [filterMatch_eq_any]
  · intro st d mw path payload hmiss
    have hchain : dispatchFn (.node st.actions) (st.attach (.strFilter d) mw).mids path
        = dispatchFn (.node st.actions) st.mids path := by
      unfold dispatchFn
      rw [show (st.attach (.strFilter d) mw).mids
          = st.mids ++ [pathAwareMiddleware (.strFilter d) mw] from rfl]
      rw [composeChain_append st.mids (pathAwareMiddleware (.strFilter d) mw) path
        (wrappedAction (.node st.actions) path)]
      rw [hstr d mw path (wrappedAction (.node st.actions) path)]
      rw [hmiss]
      simp
    unfold StoreSt.dispatch
    rw [show (st.attach (.strFilter d) mw).actions = st.actions from rfl,
        show (st.attach (.strFilter d) mw).state = st.state from rfl,
        show (st.attach (.strFilter d) mw).heap = st.heap from rfl,
        hchain]
    cases hd : dispatchFn (.node st.actions) st.mids path st.state payload st.heap with
    | ok p => exact ⟨rfl, rfl, rfl⟩
    | error e => exact ⟨rfl, rfl, rfl⟩

def c6Acts : List (String × AVal) := [("todos", .node [("add", .fn (fun _ p => p))])]

def c6Mw : Middleware := fun p _next => fun _s _pay h => .ok (.str ("MW:" ++ p), h)

def c6Base : StoreSt := ⟨.ref 0, c6Acts, [], ⟨[[("todos", JVal.undef)]]⟩⟩

def c6Store : StoreSt := c6Base.attach (.strFilter "todo") c6Mw

/-- Counterexample to C6 as stated: "todo" is not a fragment prefix of
"todos.add" (the first fragment is "todos"), yet the middleware attached with
the filter "todo" IS applied to that dispatch, because the source matches by
plain string prefix: dispatch returns the middleware result and the heap is
untouched (the base transition never ran). -/
theorem c6_filter_counterexample :
    (c6Store.dispatch "todos.add" (.str "x")).1 = .ok (.str "MW:todos.add")
    ∧ (c6Store.dispatch "todos.add" (.str "x")).2.heap = ⟨[[("todos", JVal.undef)]]⟩ := by
  exact ⟨rfl, rfl⟩

def c6Next : KFn := fun _ _ h => .ok (.undef, h)

/-- Witness for the amended C6: the filter "todo" does wrap the dispatch of
"todos.add" (plain prefix), while a store with the non-matching filter "chat"
attached dispatches "todos.add" to the same value as the store without it. -/
theorem c6_filter_semantics_witness :
    pathAwareMiddleware (.strFilter "todo") c6Mw "todos.add" c6Next
        = c6Mw "todos.add" c6Next
    ∧ ((c6Base.attach (.strFilter "chat") c6Mw).dispatch "todos.add" (.str "x")).1
        = (c6Base.dispatch "todos.add" (.str "x")).1 := by
  constructor
  · rw [c6_filter_semantics.1 "todo" c6Mw "todos.add" c6Next]
    rfl
  · exact (c6_filter_semantics.2.2.2 c6Base "chat" c6Mw "todos.add" (.str "x") rfl).1

/-! ## Claim C8: the callable accessor -/

/-- The heap after `Object.assign` of `src` onto the object `o` at `a`. -/
def overlayHeap (h : Heap) (a : Addr) (o src : Obj) : Heap :=
  h.update a (src.foldl (fun acc kv => Obj.set acc kv.1 kv.2) o)

/-- Claim C8: calling the store with no argument returns the current state by
reference, unchanged across repeated calls with no intervening write; calling
it with an object argument performs a shallow top-level overlay of the
argument object own properties onto the state object (each key written
wholesale with `Object.assign`, the same operation the constructor applies to
`initialState`) and returns the mutated state, which is still the very same
reference as before the call. -/
theorem c8_accessor (st : StoreSt) (a : Addr) (o : Obj) (b : Addr) (src : Obj)
    (hst : st.state = .ref a) (ho : st.heap.lookup a = some o)
    (hb : st.heap.lookup b = some src) :
    st.call none = .ok (st.state, st)
    ∧ st.call (some (.ref b))
        = .ok (.ref a, { st with heap := overlayHeap st.heap a o src }) := by
  constructor
  · rfl
  · show StoreSt.call st (some (.ref b)) = _
    unfold StoreSt.call
    simp only [truthy]
    have hsrc : srcEntries st.heap (.ref b) = src := by
      unfold srcEntries
      simp only
      rw [hb]
      rfl
    have hassign : jsObjectAssign st.heap st.state (srcEntries st.heap (.ref b))
        = .ok (overlayHeap st.heap a o src) := by
      rw [hsrc, hst]
      unfold jsObjectAssign overlayHeap
      simp only
      rw [ho]
    rw [hassign, hst]
    simp

def c8Acts : List (String × AVal) := [("todos", .node [("add", .fn (fun _ p => p))])]

def c8Store : StoreSt :=
  ⟨.ref 0, c8Acts, [], ⟨[[("todos", JVal.undef)], [("todos", JVal.num 1)]]⟩⟩

/-- Witness for C8: reading returns the retained reference (address 0);
overlaying the object at address 1 mutates the state object in place (its
"todos" key is replaced wholesale) and returns the same reference. -/
theorem c8_accessor_witness :
    (c8Store.call none).map Prod.fst = .ok (.ref 0)
    ∧ (c8Store.call (some (.ref 1))).map Prod.fst = .ok (.ref 0)
    ∧ (c8Store.call (some (.ref 1))).map (fun q => q.2.heap)
        = .ok (⟨[[("todos", JVal.num 1)], [("todos", JVal.num 1)]]⟩ : Heap) := by
  obtain ⟨h1, h2⟩ := c8_accessor c8Store 0 [("todos", JVal.undef)] 1
    [("todos", JVal.num 1)] rfl rfl rfl
  refine ⟨by rw [h1]; rfl, by rw [h2]; rfl, by rw [h2]; rfl⟩

/-! ## Claim C10: store construction is not failure-free -/

/-- After the root level has collapsed to a non-object value, iterating the
remaining keys either keeps returning that value (function keys) or raises a
TypeError (node keys on a non-object state). -/
theorem genEntries_after_collapse (i : JVal) (hnr : ∀ b, i ≠ JVal.ref b) :
    ∀ (es : List (String × AVal)) (h : Heap),
      genEntries (.ok i) es i h = .error .typeError
      ∨ genEntries (.ok i) es i h = .ok (i, h) := by
  intro es
  induction es with
  | nil =>
    intro h
    exact Or.inr rfl
  | cons p rest ih =>
    intro h
    obtain ⟨k, v⟩ := p
    cases v with
    | fn f => exact ih h
    | node sub =>
      left
      cases i with
      | ref b => exact absurd rfl (hnr b)
      | undef => rfl
      | jnull => rfl
      | bool bb => rfl
      | num n => rfl
      | str s => rfl

/-- Processing one node-valued key either raises or continues with the rest
of the entries on the same root reference and some evolved heap. -/
theorem genEntries_cons_node_cases (ini : Except JSError JVal) (k : String)
    (sub rest : List (String × AVal)) (state : JVal) (h : Heap) :
    (∃ e, genEntries ini ((k, .node sub) :: rest) state h = .error e)
    ∨ (∃ a h4, state = .ref a ∧ genEntries ini ((k, .node sub) :: rest) state h
          = genEntries ini rest (.ref a) h4) := by
  cases state with
  | ref a =>
    rw [genEntries]
    cases hl : h.lookup a with
    | none => exact Or.inl ⟨.typeError, rfl⟩
    | some o =>
      dsimp only
      cases hg : genStateTree (.node sub) (childState o k h).1
          ((childState o k h).2.update a (Obj.set o k (childState o k h).1)) with
      | error e => exact Or.inl ⟨e, rfl⟩
      | ok q =>
        obtain ⟨w, h3⟩ := q
        dsimp only
        cases hl3 : h3.lookup a with
        | none => exact Or.inl ⟨.typeError, rfl⟩
        | some o3 => exact Or.inr ⟨a, h3.update a (Obj.set o3 k w), rfl, rfl⟩
  | undef => exact Or.inl ⟨.typeError, rfl⟩
  | jnull => exact Or.inl ⟨.typeError, rfl⟩
  | bool bb => exact Or.inl ⟨.typeError, rfl⟩
  | num n => exact Or.inl ⟨.typeError, rfl⟩
  | str s => exact Or.inl ⟨.typeError, rfl⟩

/-- If some root key holds a function and the root `init` value is undefined
or null, the generator either raises or returns that non-object collapse
value for the whole root state. -/
theorem genEntries_root_collapse (i : JVal) (hi : i = .undef ∨ i = .jnull) :
    ∀ (es : List (String × AVal)) (state : JVal) (h : Heap),
      (∃ k f, (k, AVal.fn f) ∈ es) →
      (∃ e, genEntries (.ok i) es state h = .error e)
      ∨ ∃ h', genEntries (.ok i) es state h = .ok (i, h') := by
  intro es
  induction es with
  | nil =>
    intro state h hmem
    obtain ⟨k, f, hk⟩ := hmem
    simp at hk
  | cons p rest ih =>
    intro state h hmem
    obtain ⟨k0, v0⟩ := p
    cases v0 with
    | fn f0 =>
      rw [genEntries]
      have hnr : ∀ b, i ≠ JVal.ref b := by
        rcases hi with hi | hi <;> subst hi <;> intro b hb <;> exact JVal.noConfusion hb
      rcases genEntries_after_collapse i hnr rest h with hcase | hcase
      · exact Or.inl ⟨.typeError, hcase⟩
      · exact Or.inr ⟨h, hcase⟩
    | node sub =>
      have hmem' : ∃ k f, (k, AVal.fn f) ∈ rest := by
        obtain ⟨k, f, hk⟩ := hmem
        rcases List.mem_cons.mp hk with hk | hk
        · exact absurd hk (by simp)
        · exact ⟨k, f, hk⟩
      rcases genEntries_cons_node_cases (.ok i) k0 sub rest state h with
        ⟨e, he⟩ | ⟨a, h4, _, heq⟩
      · exact Or.inl ⟨e, he⟩
      · rw [heq]
        exact ih (.ref a) h4 hmem'

/-- Claim C10: when the root level of the actions argument contains a key
bound directly to a function and there is no root-level `init` key (or the
root `init` returns undefined or null), the store constructor throws instead
of returning a store: the generator collapses the root state to a non-object
(or itself raises while iterating a later node key), and the top-level
`Object.assign` overlay of `initialState` onto that value raises a
TypeError. -/
theorem c10_store_construction_throws (acts : List (String × AVal))
    (mids : List Middleware) (initialState : Obj) (h : Heap)
    (hfn : ∃ k f, (k, AVal.fn f) ∈ acts) (i : JVal)
    (hini : initValOf acts = .ok i) (hi : i = .undef ∨ i = .jnull) :
    ∃ e, Store.create acts mids initialState h = .error e := by
  unfold Store.create genStateTreeTop
  simp only
  rw [genStateTree, hini]
  rcases genEntries_root_collapse i hi acts (.ref (h.alloc []).1) (h.alloc []).2 hfn with
    ⟨e, he⟩ | ⟨h', he⟩
  · rw [he]
    exact ⟨e, rfl⟩
  · rw [he]
    simp only
    rcases hi with hi | hi <;> rw [hi] <;> exact ⟨.typeError, rfl⟩

def c10Acts : List (String × AVal) := [("add", .fn (fun _ p => p))]

/-- Witness for C10: constructing a store whose root directly binds the
action function "add" (no root init) throws. -/
theorem c10_store_construction_throws_witness :
    Store.create c10Acts [] [] ⟨[]⟩ = .error .typeError := by
  obtain ⟨e, he⟩ := c10_store_construction_throws c10Acts [] [] ⟨[]⟩
    ⟨"add", fun _ p => p, by simp [c10Acts]⟩ .undef rfl (Or.inl rfl)
  have hc : (Except.error e : Except JSError StoreSt) = .error .typeError :=
    he.symm.trans rfl
  rw [← Except.error.inj hc]
  exact he

/-! ## Pure reference trees and embeddings (infrastructure for C7 and C9) -/

/-- Keys of an association list are pairwise distinct. -/
def nodupKeysB {α : Type} : List (String × α) → Bool
  | [] => true
  | (k, _) :: rest => !(rest.any (fun q => q.1 == k)) && nodupKeysB rest

mutual

/-- A well-formed action-tree value, following the data-model invariant of
the spec: a node is a leaf (every enumerable key a function, at least one
key) or a branch (every value a nested well-formed node, keys distinct). -/
def wfA : AVal → Bool
  | .fn _ => false
  | .node es => (!es.isEmpty && allFn es) || (wfBranch es && nodupKeysB es)

/-- Every entry holds a well-formed node value. -/
def wfBranch : List (String × AVal) → Bool
  | [] => true
  | (_, v) :: rest =>
    (match v with
     | .fn _ => false
     | .node _ => wfA v) && wfBranch rest

end

/-- A pure (heap-free) state tree: the shape and leaf values the generator
produces from a well-formed action tree. -/
inductive PVal where
  | leaf (v : JVal)
  | branch (entries : List (String × PVal))

/-- The collapse value of a leaf node, as a plain value. -/
def initValPure (es : List (String × AVal)) : JVal :=
  match lookupA es "init" with
  | some (.fn f) => f .undef .undef
  | _ => .undef

mutual

/-- The pure state tree generated from a well-formed action tree. -/
def genPure : AVal → PVal
  | .fn _ => .leaf .undef
  | .node es =>
    if !es.isEmpty && allFn es then .leaf (initValPure es)
    else .branch (genPureList es)

def genPureList : List (String × AVal) → List (String × PVal)
  | [] => []
  | (k, v) :: rest => (k, genPure v) :: genPureList rest

end

mutual

/-- `v` embeds the pure tree `p` in heap `h`: a leaf is value-equal, a branch
is a reference to an object whose bindings match the pure entries pointwise
(same keys in the same order, values embedding the sub-trees). -/
def embedsB (h : Heap) : JVal → PVal → Bool
  | v, .leaf w => decide (v = w)
  | v, .branch es =>
    match v with
    | .ref a =>
      match h.lookup a with
      | some o => embedsEntriesB h es o
      | none => false
    | _ => false

def embedsEntriesB (h : Heap) : List (String × PVal) → Obj → Bool
  | [], [] => true
  | (k, p) :: es, (k', w) :: o =>
    decide (k = k') && embedsB h w p && embedsEntriesB h es o
  | [], _ :: _ => false
  | _ :: _, [] => false

end

mutual

/-- The heap addresses an embedding relies on. -/
def embAddrs (h : Heap) : JVal → PVal → List Addr
  | _, .leaf _ => []
  | v, .branch es =>
    match v with
    | .ref a =>
      match h.lookup a with
      | some o => a :: embAddrsEntries h es o
      | none => [a]
    | _ => []

def embAddrsEntries (h : Heap) : List (String × PVal) → Obj → List Addr
  | [], _ => []
  | _ :: _, [] => []
  | (_, p) :: es, (_, w) :: o => embAddrs h w p ++ embAddrsEntries h es o

end

mutual

/-- An embedding survives any heap change that leaves the addresses it
relies on untouched, and keeps relying on the same addresses. -/
theorem embedsB_persist (h h' : Heap) :
    ∀ (p : PVal) (v : JVal),
      embedsB h v p = true →
      (∀ b, b ∈ embAddrs h v p → h'.lookup b = h.lookup b) →
      embedsB h' v p = true ∧ embAddrs h' v p = embAddrs h v p
  | .leaf w, v, he, _ => ⟨he, rfl⟩
  | .branch es, v, he, hagree => by
    cases v with
    | ref a =>
      rw [embedsB] at he
      cases hl : h.lookup a with
      | none => rw [hl] at he; exact Bool.noConfusion he
      | some o =>
        rw [hl] at he
        have haddr : embAddrs h (.ref a) (.branch es) = a :: embAddrsEntries h es o := by
          rw [embAddrs, hl]
        have hla : h'.lookup a = some o := by
          rw [hagree a (by rw [haddr]; exact List.mem_cons_self a _)]
          exact hl
        have hsub : ∀ b, b ∈ embAddrsEntries h es o → h'.lookup b = h.lookup b := by
          intro b hb
          exact hagree b (by rw [haddr]; exact List.mem_cons_of_mem a hb)
        obtain ⟨he2, ha2⟩ := embedsEntriesB_persist h h' es o he hsub
        constructor
        · rw [embedsB, hla]
          exact he2
        · rw [embAddrs, hla, haddr]
          dsimp only
          rw [ha2]
    | undef => exact Bool.noConfusion he
    | jnull => exact Bool.noConfusion he
    | bool bb => exact Bool.noConfusion he
    | num n => exact Bool.noConfusion he
    | str s => exact Bool.noConfusion he

theorem embedsEntriesB_persist (h h' : Heap) :
    ∀ (es : List (String × PVal)) (o : Obj),
      embedsEntriesB h es o = true →
      (∀ b, b ∈ embAddrsEntries h es o → h'.lookup b = h.lookup b) →
      embedsEntriesB h' es o = true ∧ embAddrsEntries h' es o = embAddrsEntries h es o
  | [], [], _, _ => ⟨rfl, rfl⟩
  | [], _ :: _, he, _ => Bool.noConfusion he
  | _ :: _, [], he, _ => Bool.noConfusion he
  | (k, p) :: es, (k', w) :: o, he, hagree => by
    rw [embedsEntriesB] at he
    simp only [Bool.and_eq_true, decide_eq_true_eq] at he
    obtain ⟨⟨hk, hv⟩, hrest⟩ := he
    have haddr : embAddrsEntries h ((k, p) :: es) ((k', w) :: o)
        = embAddrs h w p ++ embAddrsEntries h es o := by
      rw [embAddrsEntries]
    obtain ⟨hv2, hva⟩ := embedsB_persist h h' p w hv (by
      intro b hb
      exact hagree b (by rw [haddr]; exact List.mem_append_left _ hb))
    obtain ⟨hr2, hra⟩ := embedsEntriesB_persist h h' es o hrest (by
      intro b hb
      exact hagree b (by rw [haddr]; exact List.mem_append_right _ hb))
    constructor
    · rw [embedsEntriesB]
      simp [hk, hv2, hr2]
    · rw [embAddrsEntries, hva, hra, haddr]

end

theorem keysOf_append {α : Type} (o o' : List (String × α)) :
    keysOf (o ++ o') = keysOf o ++ keysOf o' := by
  simp [keysOf]

theorem Obj.set_append_not_mem (o rest : Obj) (k : String) (w : JVal)
    (h : k ∉ keysOf o) : Obj.set (o ++ rest) k w = o ++ Obj.set rest k w := by
  induction o with
  | nil => rfl
  | cons p o' ih =>
    simp only [keysOf, List.map_cons, List.mem_cons] at h
    push_neg at h
    have h1 : ¬ p.1 = k := fun hh => h.1 hh.symm
    simp [Obj.set, h1, ih (by simpa [keysOf] using h.2)]

theorem lookupA_mem : ∀ {es : List (String × AVal)} {k : String} {v : AVal},
    lookupA es k = some v → (k, v) ∈ es := by
  intro es
  induction es with
  | nil => intro k v h; exact Option.noConfusion h
  | cons p rest ih =>
    intro k v h
    rw [lookupA] at h
    by_cases hk : p.1 = k
    · rw [if_pos hk] at h
      have hv : v = p.2 := (Option.some.inj h).symm
      rw [hv, ← hk]
      exact List.mem_cons_self _ _
    · rw [if_neg hk] at h
      exact List.mem_cons_of_mem _ (ih h)

theorem allFn_mem : ∀ {es : List (String × AVal)}, allFn es = true →
    ∀ {k : String} {v : AVal}, (k, v) ∈ es → ∃ f, v = .fn f := by
  intro es
  induction es with
  | nil => intro _ k v h; exact absurd h (List.not_mem_nil _)
  | cons p rest ih =>
    intro hfn k v h
    obtain ⟨k0, v0⟩ := p
    cases v0 with
    | fn f0 =>
      rcases List.mem_cons.mp h with h | h
      · exact ⟨f0, congrArg Prod.snd h⟩
      · exact ih (by simpa [allFn] using hfn) h
    | node sub => exact absurd hfn (by simp [allFn])

theorem initValOf_allFn (es : List (String × AVal)) (hfn : allFn es = true) :
    initValOf es = .ok (initValPure es) := by
  unfold initValOf initValPure
  cases hl : lookupA es "init" with
  | none => rfl
  | some v =>
    cases v with
    | fn f => rfl
    | node sub =>
      obtain ⟨f, hf⟩ := allFn_mem hfn (lookupA_mem hl)
      exact AVal.noConfusion hf

theorem nodupKeysB_head {α : Type} {k : String} {v : α} {rest : List (String × α)}
    (h : nodupKeysB ((k, v) :: rest) = true) : ∀ q ∈ rest, q.1 ≠ k := by
  rw [nodupKeysB] at h
  simp only [Bool.and_eq_true, Bool.not_eq_true'] at h
  intro q hq
  have := h.1
  rw [List.any_eq_false] at this
  have hq' := this q hq
  simpa using hq'

theorem nodupKeysB_tail {α : Type} {k : String} {v : α} {rest : List (String × α)}
    (h : nodupKeysB ((k, v) :: rest) = true) : nodupKeysB rest = true := by
  rw [nodupKeysB] at h
  simp only [Bool.and_eq_true] at h
  exact h.2

theorem wfBranch_cons {k : String} {v : AVal} {rest : List (String × AVal)}
    (h : wfBranch ((k, v) :: rest) = true) :
    wfA v = true ∧ wfBranch rest = true ∧ ∃ sub, v = AVal.node sub := by
  cases v with
  | fn f => exact Bool.noConfusion h
  | node sub =>
    have h' : (wfA (.node sub) && wfBranch rest) = true := h
    simp only [Bool.and_eq_true] at h'
    exact ⟨h'.1, h'.2, sub, rfl⟩

mutual

/-- Running the generator on a well-formed tree against a freshly allocated
empty object succeeds, touches only that object and fresh addresses, and
produces a value embedding the pure state tree of the action tree, relying
only on that object and fresh addresses. -/
theorem genTree_fresh (t : AVal) (hwf : wfA t = true) :
    ∀ (h : Heap) (c : Addr), h.lookup c = some [] →
      ∃ v h', genStateTree t (.ref c) h = .ok (v, h')
        ∧ h.size ≤ h'.size
        ∧ (∀ b, b < h.size → b ≠ c → h'.lookup b = h.lookup b)
        ∧ embedsB h' v (genPure t) = true
        ∧ (∀ b, b ∈ embAddrs h' v (genPure t) → b = c ∨ (h.size ≤ b ∧ b < h'.size)) := by
  intro h c hc
  cases t with
  | fn f => exact Bool.noConfusion hwf
  | node es =>
    have hgs : genStateTree (.node es) (.ref c) h = genEntries (initValOf es) es (.ref c) h := rfl
    cases hcond : (!es.isEmpty && allFn es) with
    | true =>
      simp only [Bool.and_eq_true, Bool.not_eq_true'] at hcond
      have hfn : allFn es = true := hcond.2
      have hne : es.isEmpty = false := hcond.1
      have hgp : genPure (.node es) = .leaf (initValPure es) := by
        rw [genPure]
        have : (!es.isEmpty && allFn es) = true := by simp [hfn, hne]
        rw [this]
        simp
      refine ⟨initValPure es, h, ?_, le_refl _, fun b _ _ => rfl, ?_, ?_⟩
      · rw [hgs, initValOf_allFn es hfn, genEntries_allFn (initValPure es) es hfn (.ref c) h,
          hne]
        simp
      · rw [hgp]
        simp [embedsB]
      · rw [hgp]
        intro b hb
        simp [embAddrs] at hb
    | false =>
      rw [wfA] at hwf
      rw [hcond] at hwf
      simp only [Bool.false_or, Bool.and_eq_true] at hwf
      have hgp : genPure (.node es) = .branch (genPureList es) := by
        rw [genPure, hcond]
        simp
      obtain ⟨no, h', hgr, hsz, hfr, hla, hembE, haddrE⟩ :=
        genEntries_fresh (initValOf es) es hwf.1 hwf.2 h c [] hc
          (by intro q _; simp [keysOf])
      have hla' : h'.lookup c = some no := by simpa using hla
      refine ⟨.ref c, h', ?_, hsz, hfr, ?_, ?_⟩
      · rw [hgs]; exact hgr
      · rw [hgp, embedsB, hla']
        exact hembE
      · rw [hgp]
        intro b hb
        rw [embAddrs, hla'] at hb
        rcases List.mem_cons.mp hb with hb | hb
        · exact Or.inl hb
        · exact Or.inr (haddrE b hb)

/-- Iterating well-formed branch entries whose keys are absent from the root
object succeeds, appends exactly one binding per entry to the root object in
order, touches nothing but the root object and fresh addresses, and the new
bindings embed the pure state trees of the entries through fresh addresses
only. -/
theorem genEntries_fresh (ini : Except JSError JVal) :
    ∀ (es : List (String × AVal)), wfBranch es = true → nodupKeysB es = true →
    ∀ (h : Heap) (a : Addr) (o : Obj), h.lookup a = some o →
      (∀ q ∈ es, q.1 ∉ keysOf o) →
      ∃ no h', genEntries ini es (.ref a) h = .ok (.ref a, h')
        ∧ h.size ≤ h'.size
        ∧ (∀ b, b < h.size → b ≠ a → h'.lookup b = h.lookup b)
        ∧ h'.lookup a = some (o ++ no)
        ∧ embedsEntriesB h' (genPureList es) no = true
        ∧ (∀ b, b ∈ embAddrsEntries h' (genPureList es) no → h.size ≤ b ∧ b < h'.size)
  | [], _, _, h, a, o, ho, _ =>
    ⟨[], h, rfl, le_refl _, fun _ _ _ => rfl, by simpa using ho, rfl,
      by intro b hb; exact absurd hb (List.not_mem_nil b)⟩
  | (k, v) :: rest, hwf, hnd, h, a, o, ho, habs => by
    obtain ⟨hwfv, hwfr, sub, hvsub⟩ := wfBranch_cons hwf
    subst hvsub
    have hndr : nodupKeysB rest = true := nodupKeysB_tail hnd
    have hknr : ∀ q ∈ rest, q.1 ≠ k := nodupKeysB_head hnd
    have hka : k ∉ keysOf o := habs (k, .node sub) (List.mem_cons_self _ _)
    have hcur : Obj.get o k = .undef := Obj.get_of_not_mem o k hka
    have hcs : childState o k h = (.ref (h.alloc []).1, (h.alloc []).2) := by
      rw [childState, hcur]
      rfl
    have ha_lt : a < h.size := Heap.lookup_lt_size ho
    have hcne : (h.alloc []).1 ≠ a := by
      rw [Heap.alloc_fst]
      exact Nat.ne_of_gt ha_lt
    have hlookA2 : ((h.alloc []).2.update a (Obj.set o k (.ref (h.alloc []).1))).lookup a
        = some (Obj.set o k (.ref (h.alloc []).1)) := by
      apply Heap.lookup_update_self
      rw [Heap.size_alloc]
      exact Nat.lt_succ_of_lt ha_lt
    have hsetk : Obj.set o k (.ref (h.alloc []).1) = o ++ [(k, .ref (h.alloc []).1)] :=
      Obj.set_of_not_mem o k _ hka
    have hlookC2 : ((h.alloc []).2.update a
        (Obj.set o k (.ref (h.alloc []).1))).lookup (h.alloc []).1 = some [] := by
      rw [Heap.lookup_update_ne _ _ _ _ hcne]
      exact Heap.lookup_alloc_self h []
    obtain ⟨w, h3, hg, hsz3, hfr3, hemb3, haddr3⟩ :=
      genTree_fresh (.node sub) hwfv
        ((h.alloc []).2.update a (Obj.set o k (.ref (h.alloc []).1))) (h.alloc []).1 hlookC2
    have hszA2 : ((h.alloc []).2.update a (Obj.set o k (.ref (h.alloc []).1))).size
        = h.size + 1 := by
      rw [Heap.size_update, Heap.size_alloc]
    have hlook3 : h3.lookup a = some (o ++ [(k, .ref (h.alloc []).1)]) := by
      rw [hfr3 a (by rw [hszA2]; exact Nat.lt_succ_of_lt ha_lt)
        (fun hcontra => hcne hcontra.symm)]
      rw [hlookA2, hsetk]
    have hset2 : Obj.set (o ++ [(k, .ref (h.alloc []).1)]) k w = o ++ [(k, w)] := by
      rw [Obj.set_append_not_mem o _ k w hka]
      simp [Obj.set]
    have hsz3' : h.size + 1 ≤ h3.size := by
      rw [← hszA2]
      exact hsz3
    have hlook4 : (h3.update a (Obj.set (o ++ [(k, .ref (h.alloc []).1)]) k w)).lookup a
        = some (o ++ [(k, w)]) := by
      rw [hset2]
      apply Heap.lookup_update_self
      exact Nat.lt_of_lt_of_le (Nat.lt_succ_of_lt ha_lt) hsz3'
    have habsr : ∀ q ∈ rest, q.1 ∉ keysOf (o ++ [(k, w)]) := by
      intro q hq
      rw [keysOf_append]
      intro hmem
      rcases List.mem_append.mp hmem with hm | hm
      · exact habs q (List.mem_cons_of_mem _ hq) hm
      · exact hknr q hq (by simpa [keysOf] using hm)
    obtain ⟨no', h5, hgr, hsz5, hfr5, hla5, hembr, haddr5⟩ :=
      genEntries_fresh ini rest hwfr hndr
        (h3.update a (Obj.set (o ++ [(k, .ref (h.alloc []).1)]) k w)) a (o ++ [(k, w)])
        hlook4 habsr
    have hsz4 : (h3.update a (Obj.set (o ++ [(k, .ref (h.alloc []).1)]) k w)).size
        = h3.size := Heap.size_update h3 a _
    -- the embedding of the child persists from h3 to the final heap
    have hagree35 : ∀ b, b ∈ embAddrs h3 w (genPure (.node sub)) →
        h5.lookup b = h3.lookup b := by
      intro b hb
      have hbprops : b ≠ a ∧ b < h3.size := by
        rcases haddr3 b hb with hb1 | ⟨hb2, hb3⟩
        · constructor
          · rw [hb1]; exact hcne
          · rw [hb1, Heap.alloc_fst]
            exact Nat.lt_of_lt_of_le (Nat.lt_succ_self _) hsz3'
        · constructor
          · rw [hszA2] at hb2
            exact Nat.ne_of_gt (Nat.lt_of_lt_of_le (Nat.lt_succ_of_lt ha_lt) hb2)
          · exact hb3
      rw [hfr5 b (by rw [hsz4]; exact hbprops.2) hbprops.1]
      rw [Heap.lookup_update_ne _ _ _ _ hbprops.1]
    obtain ⟨hemb5, haddrEq⟩ :=
      embedsB_persist h3 h5 (genPure (.node sub)) w hemb3 hagree35
    refine ⟨(k, w) :: no', h5, ?_, ?_, ?_, ?_, ?_, ?_⟩
    · rw [genEntries, ho]
      dsimp only
      rw [hcs]
      dsimp only
      rw [hg]
      dsimp only
      rw [hlook3]
      dsimp only
      exact hgr
    · rw [hsz4] at hsz5
      exact le_trans (le_trans (Nat.le_succ _) hsz3') hsz5
    · intro b hb hba
      rw [hfr5 b (by rw [hsz4]; exact Nat.lt_of_lt_of_le (Nat.lt_succ_of_lt hb) hsz3') hba]
      rw [Heap.lookup_update_ne _ _ _ _ hba]
      rw [hfr3 b (by rw [hszA2]; exact Nat.lt_succ_of_lt hb)
        (by rw [Heap.alloc_fst]; exact Nat.ne_of_lt hb)]
      rw [Heap.lookup_update_ne _ _ _ _ hba]
      exact Heap.lookup_alloc_lt h [] b hb
    · rw [show (o ++ [(k, w)]) ++ no' = o ++ ((k, w) :: no') by simp] at hla5
      exact hla5
    · show embedsEntriesB h5 ((k, genPure (.node sub)) :: genPureList rest) ((k, w) :: no')
        = true
      rw [embedsEntriesB]
      simp [hemb5, hembr]
    · show ∀ b, b ∈ embAddrsEntries h5
          ((k, genPure (.node sub)) :: genPureList rest) ((k, w) :: no') →
          h.size ≤ b ∧ b < h5.size
      intro b hb
      rw [embAddrsEntries] at hb
      rw [hsz4] at hsz5
      rcases List.mem_append.mp hb with hb | hb
      · rw [haddrEq] at hb
        rcases haddr3 b hb with hb1 | ⟨hb2, hb3⟩
        · rw [hb1, Heap.alloc_fst]
          exact ⟨le_refl _,
            Nat.lt_of_lt_of_le (Nat.lt_of_lt_of_le (Nat.lt_succ_self _) hsz3') hsz5⟩
        · rw [hszA2] at hb2
          exact ⟨le_trans (Nat.le_succ _) hb2, Nat.lt_of_lt_of_le hb3 hsz5⟩
      · have hrange := haddr5 b hb
        rw [hsz4] at hrange
        exact ⟨le_trans (le_trans (Nat.le_succ _) hsz3') hrange.1, hrange.2⟩

end

/-! ## Claim C9: generator shape, structural equality, reference distinctness -/

/-- Claim C9 (amended): for every well-formed action tree whose root is a
branch (no direct function-valued key at the root level), running the
generator with the defaulted empty state argument succeeds and produces a
state tree whose branch/leaf shape matches the action tree (both runs embed
the same pure state tree `genPureList es`, which is exactly branch/leaf shape
congruence plus the init leaf values); two separate runs yield results that
are structurally equal (they embed that same pure tree, the first embedding
still valid after the second run) but reference-distinct: the two root
references differ.  (For a root-level leaf tree both runs instead return the
same scalar — see the counterexample.) -/
theorem c9_generator_shape (es : List (String × AVal))
    (hwf : wfBranch es = true) (hnd : nodupKeysB es = true) (h : Heap) :
    ∃ h1 h2, genStateTreeTop es h = .ok (.ref h.size, h1)
      ∧ genStateTreeTop es h1 = .ok (.ref h1.size, h2)
      ∧ embedsB h1 (.ref h.size) (.branch (genPureList es)) = true
      ∧ embedsB h2 (.ref h1.size) (.branch (genPureList es)) = true
      ∧ embedsB h2 (.ref h.size) (.branch (genPureList es)) = true
      ∧ h.size < h1.size
      ∧ JVal.ref h.size ≠ JVal.ref h1.size := by
  -- first run
  obtain ⟨no1, h1, hg1, hsz1, hfr1, hla1, hemb1, haddr1⟩ :=
    genEntries_fresh (initValOf es) es hwf hnd (h.alloc []).2 (h.alloc []).1 []
      (Heap.lookup_alloc_self h []) (by intro q _; simp [keysOf])
  have hszA : (h.alloc []).2.size = h.size + 1 := Heap.size_alloc h []
  have hsz1' : h.size + 1 ≤ h1.size := by rw [← hszA]; exact hsz1
  have hla1' : h1.lookup (h.alloc []).1 = some no1 := by simpa using hla1
  have he1 : genStateTreeTop es h = .ok (.ref h.size, h1) := by
    show genStateTree (.node es) (.ref (h.alloc []).1) (h.alloc []).2 = _
    rw [show genStateTree (.node es) (.ref (h.alloc []).1) (h.alloc []).2
        = genEntries (initValOf es) es (.ref (h.alloc []).1) (h.alloc []).2 from rfl, hg1]
    rw [Heap.alloc_fst]
  have hm1 : embedsB h1 (.ref h.size) (.branch (genPureList es)) = true := by
    rw [embedsB, show (h.size : Addr) = (h.alloc []).1 from (Heap.alloc_fst h []).symm, hla1']
    exact hemb1
  -- second run
  obtain ⟨no2, h2, hg2, hsz2, hfr2, hla2, hemb2, haddr2⟩ :=
    genEntries_fresh (initValOf es) es hwf hnd (h1.alloc []).2 (h1.alloc []).1 []
      (Heap.lookup_alloc_self h1 []) (by intro q _; simp [keysOf])
  have hszA2 : (h1.alloc []).2.size = h1.size + 1 := Heap.size_alloc h1 []
  have hla2' : h2.lookup (h1.alloc []).1 = some no2 := by simpa using hla2
  have he2 : genStateTreeTop es h1 = .ok (.ref h1.size, h2) := by
    show genStateTree (.node es) (.ref (h1.alloc []).1) (h1.alloc []).2 = _
    rw [show genStateTree (.node es) (.ref (h1.alloc []).1) (h1.alloc []).2
        = genEntries (initValOf es) es (.ref (h1.alloc []).1) (h1.alloc []).2 from rfl, hg2]
    rw [Heap.alloc_fst]
  have hm2 : embedsB h2 (.ref h1.size) (.branch (genPureList es)) = true := by
    rw [embedsB, show (h1.size : Addr) = (h1.alloc []).1 from (Heap.alloc_fst h1 []).symm,
      hla2']
    exact hemb2
  -- the first embedding survives the second run
  have hagree12 : ∀ b, b ∈ embAddrs h1 (.ref h.size) (.branch (genPureList es)) →
      h2.lookup b = h1.lookup b := by
    intro b hb
    rw [embAddrs, show (h.size : Addr) = (h.alloc []).1 from (Heap.alloc_fst h []).symm,
      hla1'] at hb
    have hblt : b < h1.size := by
      rcases List.mem_cons.mp hb with hb | hb
      · rw [hb, Heap.alloc_fst]
        exact Nat.lt_of_lt_of_le (Nat.lt_succ_self _) hsz1'
      · have := haddr1 b hb
        exact this.2
    have hbne : b ≠ (h1.alloc []).1 := by
      rw [Heap.alloc_fst]
      exact Nat.ne_of_lt hblt
    rw [hfr2 b (by rw [hszA2]; exact Nat.lt_succ_of_lt hblt) hbne]
    exact Heap.lookup_alloc_lt h1 [] b hblt
  obtain ⟨hm3, _⟩ := embedsB_persist h1 h2 (.branch (genPureList es)) (.ref h.size)
    hm1 hagree12
  refine ⟨h1, h2, he1, he2, hm1, hm2, hm3, ?_, ?_⟩
  · exact Nat.lt_of_lt_of_le (Nat.lt_succ_self _) hsz1'
  · intro hcontra
    have := JVal.ref.inj hcontra
    exact absurd this (Nat.ne_of_lt (Nat.lt_of_lt_of_le (Nat.lt_succ_self _) hsz1'))

def c9LeafActs : List (String × AVal) := [("f", .fn (fun _ _ => .undef))]

/-- Counterexample to C9 as stated: the action tree binding "f" directly to a
function at the root is a valid action tree, and two separate generator runs
(the second on the heap left by the first) both return the scalar undefined:
the two results are the very same value, not reference-distinct objects. -/
theorem c9_generator_shape_counterexample :
    genStateTreeTop c9LeafActs ⟨[]⟩ = .ok (.undef, ⟨[[]]⟩)
    ∧ genStateTreeTop c9LeafActs ⟨[[]]⟩ = .ok (.undef, ⟨[[], []]⟩) := by
  exact ⟨rfl, rfl⟩

def c9Acts : List (String × AVal) := [("todos", .node [("add", .fn (fun _ p => p))])]

def c9H1 : Heap := ⟨[[("todos", JVal.undef)], []]⟩

def c9H2 : Heap := ⟨[[("todos", JVal.undef)], [], [("todos", JVal.undef)], []]⟩

/-- Witness for the amended C9: two runs of the generator on the branch tree
with one "todos" leaf produce reference-distinct roots (addresses 0 and 2)
that both embed the same pure state tree. -/
theorem c9_generator_shape_witness :
    genStateTreeTop c9Acts ⟨[]⟩ = .ok (.ref 0, c9H1)
    ∧ genStateTreeTop c9Acts c9H1 = .ok (.ref 2, c9H2)
    ∧ embedsB c9H1 (.ref 0) (.branch (genPureList c9Acts)) = true
    ∧ embedsB c9H2 (.ref 2) (.branch (genPureList c9Acts)) = true
    ∧ embedsB c9H2 (.ref 0) (.branch (genPureList c9Acts)) = true
    ∧ JVal.ref 0 ≠ JVal.ref 2 := by
  obtain ⟨h1, h2, e1, e2, m1, m2, m3, hlt, hne⟩ :=
    c9_generator_shape c9Acts rfl (by decide) ⟨[]⟩
  have hp1 : ((JVal.ref 0 : JVal), h1) = ((JVal.ref 0 : JVal), c9H1) :=
    Except.ok.inj (e1.symm.trans rfl)
  have hh1 : h1 = c9H1 := congrArg Prod.snd hp1
  rw [hh1] at e2 m1 m2
  have hp2 : ((JVal.ref 2 : JVal), h2) = ((JVal.ref 2 : JVal), c9H2) :=
    Except.ok.inj (e2.symm.trans rfl)
  have hh2 : h2 = c9H2 := congrArg Prod.snd hp2
  rw [hh2] at e2 m2 m3
  exact ⟨e1.trans (by rw [hh1]; rfl), e2, m1, m2, m3, by decide⟩

/-! ## Claim C7: merging new actions -/

theorem lookupA_alistSet_self (es : List (String × AVal)) (k : String) (v : AVal) :
    lookupA (alistSet es k v) k = some v := by
  induction es with
  | nil => simp [alistSet, lookupA]
  | cons p rest ih =>
    by_cases hk : p.1 = k
    · simp [alistSet, lookupA, hk]
    · simp [alistSet, lookupA, hk, ih]

theorem lookupA_alistSet_ne (es : List (String × AVal)) (k k' : String) (v : AVal)
    (hk : k' ≠ k) : lookupA (alistSet es k v) k' = lookupA es k' := by
  have hkk : ¬ k = k' := fun hh => hk hh.symm
  induction es with
  | nil => simp [alistSet, lookupA, hkk]
  | cons p rest ih =>
    by_cases h1 : p.1 = k
    · have h2 : ¬ p.1 = k' := by rw [h1]; exact hkk
      simp [alistSet, lookupA, h1, hkk, h2]
    · by_cases h2 : p.1 = k' <;> simp [alistSet, lookupA, h1, h2, ih, hk]

theorem lookupA_assignA_not_mem :
    ∀ (news base : List (String × AVal)) (k : String), k ∉ keysOf news →
      lookupA (assignA base news) k = lookupA base k := by
  intro news
  induction news with
  | nil => intro base k _; rfl
  | cons p rest ih =>
    intro base k hk
    simp only [keysOf, List.map_cons, List.mem_cons] at hk
    push_neg at hk
    show lookupA (assignA (alistSet base p.1 p.2) rest) k = _
    rw [ih _ k (by simpa [keysOf] using hk.2)]
    exact lookupA_alistSet_ne base p.1 k p.2 hk.1

theorem mem_keysOf {α : Type} {es : List (String × α)} {k : String} :
    k ∈ keysOf es ↔ ∃ q ∈ es, q.1 = k := by
  constructor
  · intro hm
    have hm' : ∃ x, (k, x) ∈ es := by simpa [keysOf] using hm
    obtain ⟨x, hx⟩ := hm'
    exact ⟨(k, x), hx, rfl⟩
  · rintro ⟨q, hq, hk⟩
    have hx : ∃ x, (k, x) ∈ es := ⟨q.2, by rw [← hk]; exact hq⟩
    simpa [keysOf] using hx

theorem lookupA_assignA_mem :
    ∀ (news base : List (String × AVal)) (k : String), nodupKeysB news = true →
      k ∈ keysOf news → lookupA (assignA base news) k = lookupA news k := by
  intro news
  induction news with
  | nil => intro base k _ hk; simp [keysOf] at hk
  | cons p rest ih =>
    intro base k hnd hk
    obtain ⟨k0, v0⟩ := p
    show lookupA (assignA (alistSet base k0 v0) rest) k = _
    by_cases hkr : k ∈ keysOf rest
    · rw [ih _ k (nodupKeysB_tail hnd) hkr]
      have hk0 : ¬ k0 = k := by
        intro hc
        subst hc
        obtain ⟨q, hq, hq1⟩ := mem_keysOf.mp hkr
        exact nodupKeysB_head hnd q hq hq1
      rw [lookupA, if_neg hk0]
    · have hkk0 : k0 = k := by
        simp only [keysOf, List.map_cons, List.mem_cons] at hk
        rcases hk with hk | hk
        · exact hk.symm
        · exact absurd (by simpa [keysOf] using hk) hkr
      subst hkk0
      rw [lookupA_assignA_not_mem rest _ k0 hkr, lookupA_alistSet_self, lookupA, if_pos rfl]

theorem lookupA_of_mem_nodup :
    ∀ {es : List (String × AVal)}, nodupKeysB es = true →
      ∀ {k : String} {v : AVal}, (k, v) ∈ es → lookupA es k = some v := by
  intro es
  induction es with
  | nil => intro _ k v h; exact absurd h (List.not_mem_nil _)
  | cons p rest ih =>
    intro hnd k v h
    obtain ⟨k0, v0⟩ := p
    rcases List.mem_cons.mp h with h | h
    · obtain ⟨hk, hv⟩ := Prod.mk.injEq .. ▸ h
      rw [lookupA, if_pos hk.symm]
      rw [hv]
    · have hne : ¬ k0 = k := by
        intro hc
        subst hc
        exact nodupKeysB_head hnd (k0, v) h rfl
      rw [lookupA, if_neg hne]
      exact ih (nodupKeysB_tail hnd) h

/-- First-occurrence lookup in a pure entries list. -/
def lookupP : List (String × PVal) → String → Option PVal
  | [], _ => none
  | (k', p) :: rest, k => if k' = k then some p else lookupP rest k

theorem lookupP_genPureList :
    ∀ (es : List (String × AVal)) (k : String) (v : AVal),
      lookupA es k = some v → lookupP (genPureList es) k = some (genPure v) := by
  intro es
  induction es with
  | nil => intro k v h; exact Option.noConfusion h
  | cons p rest ih =>
    intro k v h
    obtain ⟨k0, v0⟩ := p
    rw [lookupA] at h
    show lookupP ((k0, genPure v0) :: genPureList rest) k = _
    by_cases hk : k0 = k
    · rw [if_pos hk] at h
      rw [lookupP, if_pos hk, Option.some.inj h]
    · rw [if_neg hk] at h
      rw [lookupP, if_neg hk]
      exact ih k v h

theorem embedsEntriesB_lookup (h : Heap) :
    ∀ (ps : List (String × PVal)) (o : Obj), embedsEntriesB h ps o = true →
      ∀ (k : String) (p : PVal), lookupP ps k = some p →
        embedsB h (Obj.get o k) p = true := by
  intro ps
  induction ps with
  | nil => intro o _ k p hp; exact Option.noConfusion hp
  | cons q rest ih =>
    intro o he k p hp
    obtain ⟨k0, p0⟩ := q
    cases o with
    | nil => exact Bool.noConfusion he
    | cons ow o' =>
      obtain ⟨k0', w0⟩ := ow
      rw [embedsEntriesB] at he
      simp only [Bool.and_eq_true, decide_eq_true_eq] at he
      obtain ⟨⟨hkeq, hw⟩, hrest⟩ := he
      rw [lookupP] at hp
      by_cases hk : k0 = k
      · rw [if_pos hk] at hp
        rw [Obj.get, if_pos (by rw [← hkeq]; exact hk), ← Option.some.inj hp]
        exact hw
      · rw [if_neg hk] at hp
        rw [Obj.get, if_neg (by rw [← hkeq]; exact hk)]
        exact ih o' hrest k p hp

theorem embedsEntriesB_keys (h : Heap) :
    ∀ (ps : List (String × PVal)) (o : Obj), embedsEntriesB h ps o = true →
      keysOf o = keysOf ps := by
  intro ps
  induction ps with
  | nil =>
    intro o he
    cases o with
    | nil => rfl
    | cons q o' => exact Bool.noConfusion he
  | cons q rest ih =>
    intro o he
    obtain ⟨k0, p0⟩ := q
    cases o with
    | nil => exact Bool.noConfusion he
    | cons ow o' =>
      obtain ⟨k0', w0⟩ := ow
      rw [embedsEntriesB] at he
      simp only [Bool.and_eq_true, decide_eq_true_eq] at he
      obtain ⟨⟨hkeq, _⟩, hrest⟩ := he
      show k0' :: keysOf o' = k0 :: keysOf rest
      rw [hkeq, ih o' hrest]

theorem keysOf_genPureList :
    ∀ (es : List (String × AVal)), keysOf (genPureList es) = keysOf es := by
  intro es
  induction es with
  | nil => rfl
  | cons p rest ih =>
    obtain ⟨k, v⟩ := p
    show k :: keysOf (genPureList rest) = k :: keysOf rest
    rw [ih]

theorem genPure_leafNode (sub : List (String × AVal)) (hne : sub.isEmpty = false)
    (hfn : allFn sub = true) : genPure (.node sub) = .leaf (initValPure sub) := by
  rw [genPure]
  have : (!sub.isEmpty && allFn sub) = true := by simp [hne, hfn]
  rw [this]
  simp

/-- Claim C7 (amended): the original claim quantifies over every store and
every newActions mapping; that universal form is refuted by
`c7_actions_merge_counterexample` below.  In the scope where the code does
merge — a store whose state is an object and a well-formed newActions mapping
(no top-level function-valued keys) whose top-level keys are absent from the
state object — `actions(newActions)` shallow-merges newActions into the
action tree at the top level (new keys added/overwritten per the last
occurrence, other keys retained), runs the generator over only newActions
against the existing state in place — appending one state binding per new
key (in particular, a new leaf entry with an `init` function gets `init()`
as its state value, like state.chat = "hi") — leaves the state value at
every top-level key not named in newActions unchanged and every object at
any other address untouched, and returns the updated action tree. -/
theorem c7_actions_merge (st : StoreSt) (news : List (String × AVal)) (a : Addr) (o : Obj)
    (hst : st.state = .ref a) (ho : st.heap.lookup a = some o)
    (habsent : ∀ q ∈ news, q.1 ∉ keysOf o)
    (hwf : wfBranch news = true) (hnd : nodupKeysB news = true) :
    ∃ no h', st.actionsMerge (some news)
        = .ok (assignA st.actions news, { st with actions := assignA st.actions news, heap := h' })
      ∧ (∀ k, k ∉ keysOf news → lookupA (assignA st.actions news) k = lookupA st.actions k)
      ∧ (∀ k, k ∈ keysOf news → lookupA (assignA st.actions news) k = lookupA news k)
      ∧ h'.lookup a = some (o ++ no)
      ∧ (∀ k, k ∉ keysOf news → Obj.get (o ++ no) k = Obj.get o k)
      ∧ (∀ b, b < st.heap.size → b ≠ a → h'.lookup b = st.heap.lookup b)
      ∧ (∀ k sub, (k, AVal.node sub) ∈ news → sub.isEmpty = false → allFn sub = true →
          Obj.get (o ++ no) k = initValPure sub) := by
  obtain ⟨no, h', hgr, hsz, hfr, hla, hembE, haddrE⟩ :=
    genEntries_fresh (initValOf news) news hwf hnd st.heap a o ho habsent
  have hkeys : keysOf no = keysOf news :=
    (embedsEntriesB_keys h' (genPureList news) no hembE).trans (keysOf_genPureList news)
  have hmerge : st.actionsMerge (some news) = .ok (assignA st.actions news,
      { st with actions := assignA st.actions news, heap := h' }) := by
    unfold StoreSt.actionsMerge
    dsimp only
    rw [hst]
    rw [show genStateTree (.node news) (.ref a) st.heap
        = genEntries (initValOf news) news (.ref a) st.heap from rfl, hgr]
  refine ⟨no, h', hmerge, ?_, ?_, hla, ?_, hfr, ?_⟩
  · intro k hk
    exact lookupA_assignA_not_mem news st.actions k hk
  · intro k hk
    exact lookupA_assignA_mem news st.actions k hnd hk
  · intro k hk
    by_cases hko : k ∈ keysOf o
    · exact Obj.get_append_left o no k hko
    · rw [Obj.get_append_right o no k hko,
        Obj.get_of_not_mem no k (by rw [hkeys]; exact hk),
        Obj.get_of_not_mem o k hko]
  · intro k sub hmem hne hfn
    have hlk : lookupA news k = some (.node sub) := lookupA_of_mem_nodup hnd hmem
    have hlp : lookupP (genPureList news) k = some (genPure (.node sub)) :=
      lookupP_genPureList news k _ hlk
    rw [genPure_leafNode sub hne hfn] at hlp
    have hemb := embedsEntriesB_lookup h' (genPureList news) no hembE k _ hlp
    have hgetno : Obj.get no k = initValPure sub := by
      simpa [embedsB] using hemb
    rw [Obj.get_append_right o no k (habsent (k, .node sub) hmem)]
    exact hgetno

def c7Acts : List (String × AVal) :=
  [("todos", .node [("init", .fn (fun _ _ => .str "E")), ("add", .fn (fun _ p => p))])]

def c7News : List (String × AVal) :=
  [("chat", .node [("init", .fn (fun _ _ => .str "tada!!")), ("start", .fn (fun _ p => p))])]

def c7Store : StoreSt := ⟨.ref 0, c7Acts, [], ⟨[[("todos", JVal.str "E")]]⟩⟩

/-- Witness for C7: merging the chat actions into a store whose state is
`\x7btodos: "E"\x7d` keeps the retained state reference, leaves the todos entry
untouched and appends chat = "tada!!" (the new leaf init value) to the same
state object. -/
theorem c7_actions_merge_witness :
    (c7Store.actionsMerge (some c7News)).map (fun q => q.2.state) = .ok (.ref 0)
    ∧ (c7Store.actionsMerge (some c7News)).map (fun q => q.2.heap)
        = .ok (⟨[[("todos", JVal.str "E"), ("chat", JVal.str "tada!!")], []]⟩ : Heap) := by
  obtain ⟨no, h', hm, hl1, hl2, hla, hget, hfr, hleaf⟩ :=
    c7_actions_merge c7Store c7News 0 [("todos", JVal.str "E")] rfl rfl
      (by decide) rfl (by decide)
  constructor
  · rw [hm]
    rfl
  · rw [hm]
    have hh' : h' = (⟨[[("todos", JVal.str "E"), ("chat", JVal.str "tada!!")], []]⟩ : Heap) := by
      have hid := hm.symm.trans
        (rfl : c7Store.actionsMerge (some c7News) = .ok (assignA c7Store.actions c7News,
          ⟨.ref 0, assignA c7Store.actions c7News, [],
            ⟨[[("todos", JVal.str "E"), ("chat", JVal.str "tada!!")], []]⟩⟩))
      have hpair := Except.ok.inj hid
      have hst' := congrArg Prod.snd hpair
      exact congrArg StoreSt.heap hst'
    rw [hh']
    rfl

def c7CexNews : List (String × AVal) :=
  [("todos", .node [("sub", .node [("f", .fn (fun _ p => p))])])]

/-- Counterexample for C7 as originally stated ("for every store and every
newActions mapping ... branches/leaves for the new actions are added ... and
returns the updated action tree"): in the store whose state entry at `todos`
has collapsed to the primitive leaf "E", merging the newActions mapping
`\x7btodos: \x7bsub: \x7bf()\x7d\x7d\x7d` makes the generator execute the
strict-mode property write `state["sub"] = ...` on the primitive "E", so
`actions(newActions)` raises a TypeError instead of merging the branch and
returning the updated action tree. -/
theorem c7_actions_merge_counterexample :
    c7Store.actionsMerge (some c7CexNews) = .error JSError.typeError := by rfl

end ElasticStore
